import Mathlib

/-!
Shallow embedding of `src/impl/realm_coordinator.cpp` (the Realm
Coordinator): the per-path concurrency and notification hub.  Pure data
and the control flow of the coordinator's methods are translated into
executable Lean definitions; the storage engine (MVCC transactions and
the commit log) is out of scope for the source file and is represented
by an abstract `Engine` carrying the contract stated for
`transaction::advance`.  Machine integers (`uint_fast64_t`,
`uint_fast32_t`, `uint64_t`) are modelled as `Nat`; the only value that
matters at the type's boundary is `std::numeric_limits<...>::max()`,
modelled as `2 ^ 64 - 1`.
-/

namespace RealmCoord

/-- Maximum of `uint_fast64_t` (and of `uint64_t`), `2 ^ 64 - 1`. -/
def UMAX : Nat := 2 ^ 64 - 1

/-- Model of `SharedGroup::VersionID`: a pair `(version, index)` ordered
lexicographically, exactly as `VersionID::operator<` orders it. -/
structure VersionID where
  version : Nat
  index : Nat
deriving DecidableEq, Repr

/-- Lexicographic strict order of `VersionID::operator<`. -/
def VersionID.ltP (a b : VersionID) : Prop :=
  a.version < b.version ∨ (a.version = b.version ∧ a.index < b.index)

/-- Reflexive closure of `ltP`, the order `operator<=` would induce. -/
def VersionID.leP (a b : VersionID) : Prop := ltP a b ∨ a = b

instance VersionID.decLtP (a b : VersionID) : Decidable (ltP a b) :=
  decidable_of_iff (a.version < b.version ∨ (a.version = b.version ∧ a.index < b.index))
    Iff.rfl

instance VersionID.decLeP (a b : VersionID) : Decidable (leP a b) :=
  decidable_of_iff (ltP a b ∨ a = b) Iff.rfl

instance VersionID.linOrd : LinearOrder VersionID where
  le := leP
  lt := ltP
  le_refl a := Or.inr rfl
  le_trans a b c hab hbc := by
    rcases a with ⟨av, ai⟩; rcases b with ⟨bv, bi⟩; rcases c with ⟨cv, ci⟩
    simp only [leP, ltP, mk.injEq] at *
    omega
  le_antisymm a b hab hba := by
    rcases a with ⟨av, ai⟩; rcases b with ⟨bv, bi⟩
    simp only [leP, ltP, mk.injEq] at *
    omega
  le_total a b := by
    rcases a with ⟨av, ai⟩; rcases b with ⟨bv, bi⟩
    simp only [leP, ltP, mk.injEq]
    omega
  lt_iff_le_not_le a b := by
    rcases a with ⟨av, ai⟩; rcases b with ⟨bv, bi⟩
    simp only [leP, ltP, mk.injEq]
    omega
  decidableLE := decLeP
  decidableLT := decLtP
  decidableEq := inferInstance

/-- Default-constructed `SharedGroup::VersionID`: version is
`std::numeric_limits<version_type>::max()`, index is `0`.  Used by the
coordinator as the "no version" sentinel. -/
def nullVersion : VersionID := ⟨UMAX, 0⟩

/-!
## Configuration compatibility (`RealmCoordinator::get_realm`, lines 63-117)

The fields of `Realm::Config` that the compatibility check reads, and
the check performed on every open that is not the first substantive
open (the `else` branch at lines 77-99).
-/

/-- Fields of `Realm::Config` relevant to `get_realm`'s compatibility
check.  `encryption_key` is a `std::vector<char>`, modelled as a list of
naturals; `schema_version` is a `uint64_t`. -/
structure RealmConfig where
  read_only : Bool
  in_memory : Bool
  encryption_key : List Nat
  schema_version : Nat
deriving DecidableEq, Repr

/-- Sentinel `ObjectStore::NotVersioned`
(`std::numeric_limits<uint64_t>::max()`). -/
def NotVersioned : Nat := 2 ^ 64 - 1

/-- Message thrown on a `read_only` mismatch (line 79). -/
def readOnlyMsg : String := "Realm at path already opened with different read permissions."

/-- Message thrown on an `in_memory` mismatch (line 82). -/
def inMemoryMsg : String := "Realm at path already opened with different inMemory settings."

/-- Message thrown on an `encryption_key` mismatch (line 85). -/
def encryptionKeyMsg : String := "Realm at path already opened with a different encryption key."

/-- Message thrown on a `schema_version` mismatch (line 88). -/
def schemaVersionMsg : String := "Realm at path already opened with different schema version."

/-- The compatibility check of `get_realm` (lines 78-98): the `else`
branch taken when the call is not the first substantive open.  Returns
`some msg` when a `MismatchedConfigException` with message `msg` is
thrown, `none` when the check passes.  The per-table schema comparison
at line 96 is guarded by `(false) &&` and can never throw, so it does
not appear. -/
def checkConfigCompat (stored incoming : RealmConfig) : Option String :=
  if stored.read_only ≠ incoming.read_only then some readOnlyMsg
  else if stored.in_memory ≠ incoming.in_memory then some inMemoryMsg
  else if stored.encryption_key ≠ incoming.encryption_key then some encryptionKeyMsg
  else if stored.schema_version ≠ incoming.schema_version ∧
          incoming.schema_version ≠ NotVersioned then some schemaVersionMsg
  else none

/-- String `needle` occurs contiguously inside `hay`. -/
def strContains (needle hay : String) : Prop :=
  ∃ pre suf : List Char, hay.data = pre ++ needle.data ++ suf

/-!
## `RealmCoordinator::send_commit_notifications` (lines 209-215)
-/

/-- Model of `send_commit_notifications`.  `REALM_ASSERT(!m_config.read_only)`
is modelled by returning `none` (a fatal assertion) when `read_only` is
set; otherwise the call returns normally and the result records whether
`m_notifier->notify_others()` was invoked (exactly when `m_notifier` is
non-null). -/
def send_commit_notifications (read_only : Bool) (hasNotifier : Bool) : Option Bool :=
  if read_only then none
  else some hasNotifier

/-!
## The process-wide coordinator registry
(`s_coordinators_per_path`, `get_coordinator`, `get_existing_coordinator`,
`~RealmCoordinator`; lines 39-61 and 138-149)

Coordinator objects are identified by a numeric id.  `live` lists the
coordinator objects currently kept alive by strong references, with the
path each was created for; `registry` is `s_coordinators_per_path`
(`weak_ptr` entries: an entry's weak reference resolves exactly when its
id is still in `live`); `nextId` supplies fresh object identities. -/
structure RegState where
  live : List (Nat × String)
  registry : List (String × Nat)
  nextId : Nat
deriving DecidableEq, Repr

/-- A weak reference to coordinator `c` still resolves (`lock()`
succeeds) iff `c` is live. -/
def isLiveCid (s : RegState) (c : Nat) : Bool :=
  s.live.any (fun e => decide (e.1 = c))

/-- Lookup of the first entry with the given key. -/
def findKey (reg : List (String × Nat)) (p : String) : Option (String × Nat) :=
  reg.find? (fun e => decide (e.1 = p))

/-- The weak pointer `s_coordinators_per_path` stores for `p`, if any. -/
def lookupReg (s : RegState) (p : String) : Option Nat :=
  (findKey s.registry p).map Prod.snd

/-- Map store `s_coordinators_per_path[path] = coordinator`: replace the
entry for the key if present, insert it otherwise. -/
def setReg : List (String × Nat) → String → Nat → List (String × Nat)
  | [], p, c => [(p, c)]
  | e :: es, p, c => if e.1 = p then (p, c) :: es else e :: setReg es p c

/-- Model of `RealmCoordinator::get_coordinator` (lines 42-54): if the
stored weak reference still resolves, return it and leave the state
unchanged; otherwise create a fresh coordinator, store a weak reference
to it, and return it (the returned strong reference keeps it alive). -/
def get_coordinator (s : RegState) (p : String) : Nat × RegState :=
  match lookupReg s p with
  | some c =>
    if isLiveCid s c then (c, s)
    else (s.nextId,
      ⟨s.live ++ [(s.nextId, p)], setReg s.registry p s.nextId, s.nextId + 1⟩)
  | none => (s.nextId,
      ⟨s.live ++ [(s.nextId, p)], setReg s.registry p s.nextId, s.nextId + 1⟩)

/-- Model of `RealmCoordinator::~RealmCoordinator` (lines 138-149),
run when the last strong reference to coordinator `c` is dropped: the
object dies, and the destructor erases every expired entry from
`s_coordinators_per_path`. -/
def destroy_coordinator (s : RegState) (c : Nat) : RegState :=
  let live' := s.live.filter (fun e => decide (¬e.1 = c))
  ⟨live',
   s.registry.filter (fun e => live'.any (fun l => decide (l.1 = e.2))),
   s.nextId⟩

/-- States reachable from the empty registry through coordinator
creation and destruction. -/
inductive Reach : RegState → Prop
  | init : Reach ⟨[], [], 0⟩
  | get (s : RegState) (p : String) (h : Reach s) : Reach (get_coordinator s p).2
  | destroy (s : RegState) (c : Nat) (h : Reach s) : Reach (destroy_coordinator s c)

/-- Internal invariant of the registry: live ids are below `nextId`,
live coordinators have pairwise distinct paths, each live coordinator is
the one its path's registry entry points to, and registry keys are
unique. -/
def RegInv (s : RegState) : Prop :=
  (∀ e ∈ s.live, e.1 < s.nextId) ∧
  s.live.Pairwise (fun a b => a.2 ≠ b.2) ∧
  (∀ e ∈ s.live, lookupReg s e.2 = some e.1) ∧
  s.registry.Pairwise (fun a b => a.1 ≠ b.1)

/-!
## Notifiers, transaction change info, and the coordinator's notifier state

`BackgroundCollection` objects are opaque to the coordinator: it only
reads `version()`, `is_alive()`, and lets them register their required
list-change descriptors.  `TransactionChangeInfo` carries a vector of
per-table accumulated change sets (`tables`) plus the registered
list-change descriptors (`lists`).  Individual changes are opaque and
modelled as elements of a `Finset Nat`; merging two
`CollectionChangeBuilder`s combines their changes, modelled as set
union.
-/

/-- A list-change descriptor inside a `TransactionChangeInfo`: the
`(table_ndx, col_ndx, row_ndx)` identity of a LinkList plus the change
set its `changes` builder has accumulated. -/
structure ListDesc where
  table_ndx : Nat
  col_ndx : Nat
  row_ndx : Nat
  changes : Finset Nat
deriving DecidableEq

/-- Identity `std::tie(list.table_ndx, list.col_ndx, list.row_ndx)`
(line 409). -/
def listId (d : ListDesc) : Nat × Nat × Nat := (d.table_ndx, d.col_ndx, d.row_ndx)

/-- Model of `TransactionChangeInfo`: per-table change sets indexed by
table number, and the list-change descriptors registered by notifiers. -/
structure TCI where
  tables : List (Finset Nat)
  lists : List ListDesc
deriving DecidableEq

/-- A fresh, empty `TransactionChangeInfo`. -/
def emptyTCI : TCI := ⟨[], []⟩

/-- The coordinator's view of a `BackgroundCollection`: an identity, the
origin `version()`, liveness of its target Realm (`is_alive()`), and
the list descriptors it registers via `add_required_change_info`. -/
structure NotifierObj where
  nid : Nat
  version : VersionID
  alive : Bool
  lists : List ListDesc
deriving DecidableEq

/-- The notifier-side state of a `RealmCoordinator` (the fields guarded
by `m_notifier_mutex`).  A shared group slot is `none` when the
`SharedGroup` has not been opened, `some none` when it is open with no
read transaction in progress, and `some (some v)` when it is reading
version `v`. -/
structure CoordState where
  notifiers : List NotifierObj
  newNotifiers : List NotifierObj
  advancerSg : Option (Option VersionID)
  notifierSg : Option (Option VersionID)
  asyncError : Bool
deriving DecidableEq

/-- The storage engine, an external collaborator of the coordinator.
`latest` is the most recent committed version; `seg a b j` is the set of
changes to table `j` that `transaction::advance` emits when advancing a
read transaction from version `a` to version `b` (the commits in the
half-open interval after `a` up to `b`); `openFails` simulates
`Realm::open_with_config` throwing (an I/O error).  `seg_comp` is the
contract that advancing in two hops emits the same changes as one hop,
and `seg_outside` that no changes are emitted for tables beyond the
engine's table count. -/
structure Engine where
  latest : VersionID
  ntables : Nat
  seg : VersionID → VersionID → Nat → Finset Nat
  openFails : Bool
  seg_comp : ∀ a b c j, a ≤ b → b ≤ c → seg a b j ∪ seg b c j = seg a c j
  seg_outside : ∀ a b j, ntables ≤ j → seg a b j = ∅

/-- A minimal concrete engine used to instantiate theorems: one table,
latest version `(7, 0)`, no changes, opening succeeds. -/
def engZero : Engine where
  latest := ⟨7, 0⟩
  ntables := 1
  seg := fun _ _ _ => ∅
  openFails := false
  seg_comp := fun _ _ _ _ _ _ => by simp
  seg_outside := fun _ _ _ _ => rfl

/-!
## `RealmCoordinator::advance_to_ready` (lines 455-515)

The loop at lines 488-510 re-reads the notifier version after each
advance only to catch concurrent moves of the notifier set; in this
sequential model the notifier list does not change while the lock is
released, so the loop advances the handle transaction to the target
once and delivers.
-/

/-- The `get_notifier_version` lambda (lines 461-469): the version of
the first notifier whose `version()` differs from the default
`SharedGroup::VersionID{}`, or that default if there is none. -/
def get_notifier_version (ns : List NotifierObj) : VersionID :=
  match ns.find? (fun n => decide (¬n.version = nullVersion)) with
  | some n => n.version
  | none => nullVersion

/-- Outcome of `advance_to_ready`: the version of the handle's shared
group when the call returns, and whether `deliver` was invoked on the
active notifiers. -/
structure A2RResult where
  finalVersion : VersionID
  delivered : Bool
deriving DecidableEq

/-- Model of `advance_to_ready` for a handle whose shared group is at
version `cur`.  Line 478 compares only `version.version` against
`std::numeric_limits<uint_fast64_t>::max()`; line 484 returns when the
target is strictly below the handle's version; otherwise the loop
advances the handle to the target and delivers. -/
def advance_to_ready (E : Engine) (s : CoordState) (cur : VersionID) : A2RResult :=
  let v := get_notifier_version s.notifiers
  if v.version = UMAX then ⟨E.latest, false⟩
  else if v < cur then ⟨cur, false⟩
  else ⟨v, true⟩

/-- Claim C7 as stated, at one input: the target is "defined" iff it
differs from the full sentinel pair; an undefined target advances to
latest without delivering; a defined target strictly below the handle
version returns without advancing or delivering; delivery only happens
at the target version. -/
def c7Claim (E : Engine) (s : CoordState) (cur : VersionID) : Prop :=
  (get_notifier_version s.notifiers = nullVersion →
    advance_to_ready E s cur = ⟨E.latest, false⟩) ∧
  (get_notifier_version s.notifiers ≠ nullVersion →
    get_notifier_version s.notifiers < cur →
    advance_to_ready E s cur = ⟨cur, false⟩) ∧
  ((advance_to_ready E s cur).delivered = true →
    (advance_to_ready E s cur).finalVersion = get_notifier_version s.notifiers)

/-!
## `RealmCoordinator::pin_version` and `register_notifier` (lines 217-258)
-/

/-- Model of `pin_version(version, index)` (lines 217-247).  With the
error latched it is a no-op.  With no advancer `SharedGroup`, open one
and begin a read at the requested version (`REALM_ASSERT(!read_only_group)`
always passes: the engine opens writable groups for background work); a
throw latches `m_async_error` and clears both advancer slots.  With an
open advancer and an empty staging list, begin a read (there is no
current read transaction).  Otherwise re-pin only when the requested
version is below the current one.  The final `match` arm (open advancer,
no read transaction, non-empty staging list) cannot occur — the source
would call `get_version_of_current_transaction` on a closed
transaction — and is left as the identity. -/
def pin_version (E : Engine) (s : CoordState) (version index : Nat) : CoordState :=
  if s.asyncError then s
  else
    let versionid : VersionID := ⟨version, index⟩
    match s.advancerSg with
    | none =>
      if E.openFails then { s with asyncError := true, advancerSg := none }
      else { s with advancerSg := some (some versionid) }
    | some r =>
      if s.newNotifiers.isEmpty then { s with advancerSg := some (some versionid) }
      else
        match r with
        | some cur =>
          if versionid < cur then { s with advancerSg := some (some versionid) }
          else s
        | none => s

/-- Model of `register_notifier` (lines 249-258): fetch the notifier's
origin version, pin it, and push the notifier onto `m_new_notifiers`. -/
def register_notifier (E : Engine) (s : CoordState) (n : NotifierObj) : CoordState :=
  let s1 := pin_version E s n.version.version n.version.index
  { s1 with newNotifiers := s1.newNotifiers ++ [n] }

/-!
## `RealmCoordinator::clean_up_dead_notifiers` (lines 260-294)
-/

/-- Placeholder notifier used only as a `getD` default at indices that
are always in range. -/
def dfltNotifier : NotifierObj := ⟨0, nullVersion, true, []⟩

/-- One removal step of the `swap_remove` lambda (lines 262-279): move
the last element into slot `i` when `i` is not the last slot, then pop
the back. -/
def swapRemoveStep (l : List NotifierObj) (i : Nat) : List NotifierObj :=
  if i + 1 < l.length then (l.set i (l.getLastD dfltNotifier)).dropLast
  else l.dropLast

/-- The scan of the `swap_remove` lambda: from index `i`, skip live
notifiers and remove dead ones (calling `release_data()` on each removed
one, which has no coordinator-visible effect).  `fuel` bounds the number
of loop iterations so that the recursion is structural; every iteration
decreases `l.length - i`, so any fuel above that difference is
sufficient and the entry point below always supplies enough. -/
def swapRemoveGo : Nat → List NotifierObj → Nat → List NotifierObj
  | 0, l, _ => l
  | fuel + 1, l, i =>
    if i < l.length then
      if (l.getD i dfltNotifier).alive then swapRemoveGo fuel l (i + 1)
      else swapRemoveGo fuel (swapRemoveStep l i) i
    else l

/-- The container after `swap_remove(container)`. -/
def swapRemove (l : List NotifierObj) : List NotifierObj :=
  swapRemoveGo (l.length + 1) l 0

/-- The boolean result of `swap_remove(container)`: whether anything was
removed, i.e. whether any element was dead. -/
def didRemove (l : List NotifierObj) : Bool := l.any (fun n => !n.alive)

/-- End the read transaction of a shared-group slot (keeping the shared
group itself open), as `end_read()` does. -/
def endReadOpt (o : Option (Option VersionID)) : Option (Option VersionID) :=
  o.map (fun _ => none)

/-- Model of `clean_up_dead_notifiers` (lines 260-294): swap-remove dead
notifiers from both lists; if removal emptied `m_notifiers` and the
notifier `SharedGroup` exists, end its read (but keep it open); likewise
for `m_new_notifiers` and the advancer. -/
def clean_up_dead_notifiers (s : CoordState) : CoordState :=
  let ns := swapRemove s.notifiers
  let nn := swapRemove s.newNotifiers
  { s with
    notifiers := ns
    newNotifiers := nn
    notifierSg :=
      if didRemove s.notifiers && ns.isEmpty && decide (s.notifierSg ≠ none)
      then endReadOpt s.notifierSg else s.notifierSg
    advancerSg :=
      if didRemove s.newNotifiers && nn.isEmpty && decide (s.advancerSg ≠ none)
      then endReadOpt s.advancerSg else s.advancerSg }

/-- External event: the Realm targeted by notifier `i` is closed or
dropped, so `is_alive()` becomes false for it (in both lists). -/
def killNotifier (s : CoordState) (i : Nat) : CoordState :=
  { s with
    notifiers := s.notifiers.map
      (fun n => if n.nid = i then { n with alive := false } else n)
    newNotifiers := s.newNotifiers.map
      (fun n => if n.nid = i then { n with alive := false } else n) }

/-!
## `RealmCoordinator::open_helper_shared_group` (lines 434-453)
-/

/-- Model of `open_helper_shared_group`: open the notifier
`SharedGroup` if absent and begin a read at the latest version, latching
`m_async_error` on a throw; if it is open but `m_notifiers` is empty
(its read was ended by the last reap), begin a fresh read at the latest
version. -/
def open_helper_shared_group (E : Engine) (s : CoordState) : CoordState :=
  match s.notifierSg with
  | none =>
    if E.openFails then { s with asyncError := true, notifierSg := none }
    else { s with notifierSg := some (some E.latest) }
  | some _ =>
    if s.notifiers.isEmpty then { s with notifierSg := some (some E.latest) }
    else s

/-!
## `run_async_notifiers` (lines 306-432): sorting and multi-version fan-in
-/

/-- The comparator `lft->version() < rgt->version()` of the
`std::sort` call at lines 338-339, as the sort's total order.
`std::sort` may order equal versions arbitrarily; insertion sort
produces one such order. -/
def sortByVersion (l : List NotifierObj) : List NotifierObj :=
  List.insertionSort (fun a b => a.version ≤ b.version) l

/-- Apply `f` to the last element of a list. -/
def updateLast {α : Type} (f : α → α) : List α → List α
  | [] => []
  | [t] => [f t]
  | t :: ts => t :: updateLast f ts

/-- The `TransactionChangeInfo` currently pointed at by `info`
(`&change_info.back()`). -/
def lastTCI (ci : List TCI) : TCI := ci.getLastD emptyTCI

/-- The table entry at index `j` of a per-table change vector (empty
when the vector is shorter). -/
def tablesAt (ts : List (Finset Nat)) (j : Nat) : Finset Nat := ts.getD j ∅

/-- The table entry at index `j` of a `TransactionChangeInfo`. -/
def tciTableAt (j : Nat) (t : TCI) : Finset Nat := tablesAt t.tables j

/-- Effect on a `TransactionChangeInfo` of
`transaction::advance(sg, info, b)` run from version `a`: the changes of
every commit between `a` and `b` are appended into the per-table change
sets. -/
def recordTables (E : Engine) (a b : VersionID) (t : TCI) : TCI :=
  { t with tables :=
      ((List.range (max t.tables.length E.ntables)).map
        (fun j => tablesAt t.tables j ∪ E.seg a b j)) }

/-- Effect of `notifier->add_required_change_info(info)`: the notifier
registers the list descriptors it needs into `info.lists`. -/
def addLists (n : NotifierObj) (t : TCI) : TCI := { t with lists := t.lists ++ n.lists }

/-- `add_required_change_info` for a whole list of notifiers. -/
def addListsAll (ns : List NotifierObj) (t : TCI) : TCI :=
  ns.foldl (fun a n => addLists n a) t

/-- Clear the `lists` of a `TransactionChangeInfo` (the source of a
`std::move`). -/
def clearLists (t : TCI) : TCI := { t with lists := [] }

/-- The version transition of the fan-in loop (lines 353-357):
`transaction::advance(*m_advancer_sg, *info, notifier->version())`
records the changes between `cur` and `nv` into the current (last)
slot, then `change_info.push_back({{}, std::move(info->lists)})` pushes
a fresh slot whose list descriptors are moved out of the old last slot,
and `info` moves to the new last slot. -/
def pushSlot (E : Engine) (cur nv : VersionID) (ci : List TCI) : List TCI :=
  updateLast clearLists (updateLast (recordTables E cur nv) ci) ++
    [⟨[], (lastTCI (updateLast (recordTables E cur nv) ci)).lists⟩]

/-- The fan-in loop of `run_async_notifiers` (lines 343-369) over the
staged notifiers sorted by version, starting from the advancer's pinned
version `cur` with `info = &change_info.back()`.  When a notifier's
version differs from `cur`, `pushSlot` advances the advancer and pushes
a fresh slot; each notifier is attached and registers its required
change info into the current slot (recorded in the returned assignment
as the slot's index).  At the end the advancer is advanced to the
latest version, recording into the last slot (the advancer's read is
then released by the caller). -/
def fanInGo (E : Engine) :
    List NotifierObj → VersionID → List TCI → List (NotifierObj × Nat) →
    List TCI × List (NotifierObj × Nat)
  | [], cur, ci, asg => (updateLast (recordTables E cur E.latest) ci, asg)
  | n :: rest, cur, ci, asg =>
    if n.version = cur then
      fanInGo E rest cur (updateLast (addLists n) ci) (asg ++ [(n, ci.length - 1)])
    else
      fanInGo E rest n.version (updateLast (addLists n) (pushSlot E cur n.version ci))
        (asg ++ [(n, (pushSlot E cur n.version ci).length - 1)])

/-- Element-wise union of two per-table change vectors, keeping the
tail of the longer one.  This is what the `else` branch of the merge
loop (lines 399-405) computes: pairwise `merge` for shared indices,
then push the extra tables of `cur`. -/
def unionTables : List (Finset Nat) → List (Finset Nat) → List (Finset Nat)
  | [], ys => ys
  | xs, [] => xs
  | x :: xs, y :: ys => (x ∪ y) :: unionTables xs ys

/-- One body of the backwards merge loop (lines 389-406), merging the
tables of `cur` into `prev`: skip when `cur.tables` is empty, copy when
`prev.tables` is empty, otherwise merge pairwise and extend. -/
def mergeTables (prev cur : List (Finset Nat)) : List (Finset Nat) :=
  if cur = [] then prev
  else if prev = [] then cur
  else unionTables prev cur

/-- The iteration of the backwards merge loop at index `i`: merge
`change_info[i]` into `change_info[i - 1]` at the table level. -/
def mergeStep (ci : List TCI) (i : Nat) : List TCI :=
  let cur := ci.getD i emptyTCI
  let prev := ci.getD (i - 1) emptyTCI
  ci.set (i - 1) { prev with tables := mergeTables prev.tables cur.tables }

/-- The backwards merge loop counter: `for (i = change_info.size() - 1;
i > 1; --i)`.  `mergePassGo ci i` performs the iterations at indices
`i, i - 1, …, 2`. -/
def mergePassGo : List TCI → Nat → List TCI
  | ci, 0 => ci
  | ci, 1 => ci
  | ci, i + 2 => mergePassGo (mergeStep ci (i + 2)) (i + 1)

/-- The whole backwards merge pass over `change_info` (lines 389-406). -/
def mergePass (ci : List TCI) : List TCI := mergePassGo ci (ci.length - 1)

/-- Placeholder list descriptor used only as a `getD` default at indices
that are always in range. -/
def dfltDesc : ListDesc := ⟨0, 0, 0, ∅⟩

/-- `changes->merge(CollectionChangeBuilder{src})`: combine the change
sets. -/
def augmentChanges (d : ListDesc) (cs : Finset Nat) : ListDesc :=
  { d with changes := d.changes ∪ cs }

/-- The inner loop of the list-change deduplication (lines 412-417):
`for (j = i; j > 0; --j)`, merging the changes of `src` (which is
`info.lists[i]`) into every earlier descriptor with the same identity.
`dedupInnerGo src ls j` performs the iterations touching positions
`j - 1, …, 0`. -/
def dedupInnerGo (src : ListDesc) : List ListDesc → Nat → List ListDesc
  | ls, 0 => ls
  | ls, j + 1 =>
    if listId (ls.getD j dfltDesc) = listId src then
      dedupInnerGo src (ls.set j (augmentChanges (ls.getD j dfltDesc) src.changes)) j
    else
      dedupInnerGo src ls j

/-- The outer loop of the list-change deduplication:
`for (i = 1; i < info.lists.size(); ++i)`.  `fuel` bounds the number of
loop iterations so that the recursion is structural; the loop runs
`ls.length - i` times (the inner pass preserves the length), so any
fuel at least that large is sufficient and the entry point below always
supplies enough. -/
def dedupOuterGo : Nat → List ListDesc → Nat → List ListDesc
  | 0, ls, _ => ls
  | fuel + 1, ls, i =>
    if i < ls.length then
      dedupOuterGo fuel (dedupInnerGo (ls.getD i dfltDesc) ls i) (i + 1)
    else ls

/-- Deduplication of the list-change descriptors of one
`TransactionChangeInfo` (lines 410-418). -/
def dedupLists (ls : List ListDesc) : List ListDesc := dedupOuterGo ls.length ls 1

/-- The deduplication pass over every `change_info` entry
(lines 408-418). -/
def dedupPass (ci : List TCI) : List TCI :=
  ci.map (fun t => { t with lists := dedupLists t.lists })

/-!
## `RealmCoordinator::run_async_notifiers` (lines 306-432)
-/

/-- Outcome of one `run_async_notifiers` cycle: the coordinator state it
leaves behind, the final `change_info` vector (after merging and
deduplication), and for each staged notifier the `change_info` slot it
registered its required change info into. -/
structure RunResult where
  state : CoordState
  changeInfo : List TCI
  assign : List (NotifierObj × Nat)
deriving DecidableEq

/-- Model of `run_async_notifiers`.  `none` models a `REALM_ASSERT`
failure (line 341: the advancer's current version must equal the version
of the first staged notifier after sorting) or a call into a
`SharedGroup` that has no read transaction, which the source would make
as undefined behaviour.  Steps, in source order: reap dead notifiers;
return if nothing is left; open the notifier shared group unless the
error is latched; on a latched error move all staged notifiers into the
active list and return; otherwise sort the staged notifiers, fan them
in from the advancer's pinned version (releasing the advancer's read at
the end), advance the notifier shared group to the latest version into
`change_info[0]` (after the active notifiers registered their required
change info there), append the staged notifiers to the active list,
merge the per-version deltas backwards, deduplicate list descriptors,
run and publish, and reap again. -/
def run_async_notifiers (E : Engine) (s : CoordState) : Option RunResult :=
  let s1 := clean_up_dead_notifiers s
  if s1.notifiers.isEmpty && s1.newNotifiers.isEmpty then some ⟨s1, [], []⟩
  else
    let s2 := if !s1.asyncError then open_helper_shared_group E s1 else s1
    if s2.asyncError then
      some ⟨{ s2 with notifiers := s2.notifiers ++ s2.newNotifiers, newNotifiers := [] },
        [], []⟩
    else
      match s2.notifierSg with
      | some (some w) =>
        let staged := s2.newNotifiers
        let s3 := { s2 with newNotifiers := [] }
        if staged.isEmpty then
          let ci0 := recordTables E w E.latest (addListsAll s3.notifiers emptyTCI)
          let ci := dedupPass (mergePass [ci0])
          let s4 := { s3 with notifierSg := some (some E.latest) }
          some ⟨clean_up_dead_notifiers s4, ci, []⟩
        else
          match s3.advancerSg with
          | some (some v) =>
            let sorted := sortByVersion staged
            if v = (sorted.headD dfltNotifier).version then
              let fi := fanInGo E sorted v [emptyTCI, emptyTCI] []
              let head0 :=
                recordTables E w E.latest (addListsAll s3.notifiers (fi.1.headD emptyTCI))
              let ci2 := dedupPass (mergePass (head0 :: fi.1.tail))
              let s4 := { s3 with
                notifiers := s3.notifiers ++ sorted,
                advancerSg := some none,
                notifierSg := some (some E.latest) }
              some ⟨clean_up_dead_notifiers s4, ci2, fi.2⟩
            else none
          | _ => none
      | _ => none

/-- The coordinator-state transitions: version pinning, notifier
registration, the death of a notifier's Realm, the reap pass, and a
full `run_async_notifiers` cycle. -/
inductive Step (E : Engine) : CoordState → CoordState → Prop
  | pin (s : CoordState) (version index : Nat) :
      Step E s (pin_version E s version index)
  | reg (s : CoordState) (n : NotifierObj) : Step E s (register_notifier E s n)
  | kill (s : CoordState) (i : Nat) : Step E s (killNotifier s i)
  | cleanup (s : CoordState) : Step E s (clean_up_dead_notifiers s)
  | run (s : CoordState) (r : RunResult) (h : run_async_notifiers E s = some r) :
      Step E s r.state

/-!
## Claim C1: the advancer-pinned-at-minimum invariant and its violation
-/

/-- The state reached by registering notifier 1 at version `(3, 0)` and
notifier 2 at version `(5, 0)` on a fresh coordinator, after which
notifier 1's Realm dies. -/
def c1BugState : CoordState :=
  killNotifier
    (register_notifier engZero
      (register_notifier engZero ⟨[], [], none, none, false⟩ ⟨1, ⟨3, 0⟩, true, []⟩)
      ⟨2, ⟨5, 0⟩, true, []⟩) 1

/-!
## Claim C4: the size of `change_info` and release of the advancer's read
-/

instance : IsTotal NotifierObj (fun a b => a.version ≤ b.version) :=
  ⟨fun a b => le_total a.version b.version⟩

instance : IsTrans NotifierObj (fun a b => a.version ≤ b.version) :=
  ⟨fun _ _ _ hab hbc => le_trans hab hbc⟩

/-- The number of strictly ascending version transitions the fan-in loop
makes over a staged-notifier list, starting from `cur` (each transition
pushes one `change_info` slot). -/
def cdist : VersionID → List NotifierObj → Nat
  | _, [] => 0
  | cur, n :: rest => (if n.version = cur then 0 else 1) + cdist n.version rest

/-- Union of a list of change sets. -/
def unionOver (l : List (Finset Nat)) : Finset Nat := l.foldr (fun a b => a ∪ b) ∅

/-- The union of the per-table change sets for table `j` over the
`change_info` slots with indices `k, k + 1, …, m`. -/
def rangeUnion (ci : List TCI) (j k m : Nat) : Finset Nat :=
  unionOver ((List.range' k (m + 1 - k)).map
    (fun idx => tciTableAt j (ci.getD idx emptyTCI)))

/-- Hypotheses the fan-in loop maintains: every staged version is at or
above the advancer's current version, ascending, and at or below the
latest committed version. -/
def VChain (E : Engine) : VersionID → List NotifierObj → Prop
  | _, [] => True
  | cur, n :: rest => cur ≤ n.version ∧ n.version ≤ E.latest ∧ VChain E n.version rest

/-- A concrete engine with two tables and one change per commit: the
change set for table `j < 2` between versions `a` and `b` is the set of
commit numbers in `(a.version, b.version]` (up to 8). -/
def engNat : Engine where
  latest := ⟨7, 0⟩
  ntables := 2
  seg := fun a b j =>
    if j < 2 then (Finset.range 8).filter (fun t => a.version < t ∧ t ≤ b.version)
    else ∅
  openFails := false
  seg_comp := by
    intro a b c j hab hbc
    by_cases hj : j < 2
    · simp only [if_pos hj]
      have h1 : a.version ≤ b.version := by
        rcases (hab : VersionID.leP a b) with h | rfl
        · rcases (h : a.version < b.version ∨
              (a.version = b.version ∧ a.index < b.index)) with h | h <;> omega
        · exact Nat.le_refl _
      have h2 : b.version ≤ c.version := by
        rcases (hbc : VersionID.leP b c) with h | rfl
        · rcases (h : b.version < c.version ∨
              (b.version = c.version ∧ b.index < c.index)) with h | h <;> omega
        · exact Nat.le_refl _
      ext t
      simp only [Finset.mem_union, Finset.mem_filter, Finset.mem_range]
      omega
    · simp [hj]
  seg_outside := by
    intro a b j hj
    simp only []
    rw [if_neg (by omega)]

/-- The concrete state for the C5 witness: one active notifier prepared
at version `(5, 0)`, two staged notifiers at origins `(3, 0)` and
`(5, 0)`, the advancer pinned at the minimum `(3, 0)`, the notifier
transaction at `(5, 0)`. -/
def c5WitState : CoordState :=
  ⟨[⟨0, ⟨5, 0⟩, true, []⟩],
   [⟨1, ⟨3, 0⟩, true, []⟩, ⟨2, ⟨5, 0⟩, true, []⟩],
   some (some ⟨3, 0⟩), some (some ⟨5, 0⟩), false⟩

/-- The union of the changes accumulated by the descriptors at positions
`q ≥ i` whose identity matches that of position `p`, excluding `p`
itself and earlier positions. -/
def laterMatchUnion (ls : List ListDesc) (i p : Nat) : Finset Nat :=
  unionOver (((List.range' i (ls.length - i)).filter
    (fun q => decide (p < q ∧
      listId (ls.getD q dfltDesc) = listId (ls.getD p dfltDesc)))).map
    (fun q => (ls.getD q dfltDesc).changes))

/-- The union of the changes of every descriptor whose identity matches
that of position `e` (duplicates of `e`, including `e` itself). -/
def matchUnion (ls : List ListDesc) (e : Nat) : Finset Nat :=
  unionOver (((List.range ls.length).filter
    (fun q => decide (listId (ls.getD q dfltDesc) = listId (ls.getD e dfltDesc)))).map
    (fun q => (ls.getD q dfltDesc).changes))

/-- Concrete list descriptors for the C9 witness: positions 0 and 2
share the identity `(1, 2, 3)`. -/
def c9WitLists : List ListDesc :=
  [⟨1, 2, 3, {1}⟩, ⟨4, 5, 6, {2}⟩, ⟨1, 2, 3, {3}⟩]

/-!
## Claim C8: `RealmCoordinator::clear_cache` (lines 159-191)

The model captures the handle-management side of the process: the live
coordinator objects (`coords`), the Realm handles (`realms`, each with
its owning coordinator, whether user code still holds strong references
— which is what makes the cached weak reference resolve — and how many
times `close()` has run on it), and the process registry
`s_coordinators_per_path`.
-/

/-- A Realm handle: its identity, the coordinator that cached it, whether
strong references to it remain (so weak references resolve), and the
number of times `close()` has been invoked on it. -/
structure RealmObj where
  rid : Nat
  owner : Nat
  alive : Bool
  closeCount : Nat
deriving DecidableEq

/-- A live coordinator object: its identity, whether its
`m_notifier` (commit notifier) is present, and `m_weak_realm_notifiers`
as the list of handle identities it holds weak references to. -/
structure CoordObj where
  cid : Nat
  hasNotifier : Bool
  weakRealms : List Nat
deriving DecidableEq

/-- The handle-management state of the process. -/
structure CacheState where
  coords : List CoordObj
  realms : List RealmObj
  registry : List (String × Nat)
deriving DecidableEq

def findCoord (st : CacheState) (c : Nat) : Option CoordObj :=
  st.coords.find? (fun x => decide (x.cid = c))

def findRealm (st : CacheState) (r : Nat) : Option RealmObj :=
  st.realms.find? (fun x => decide (x.rid = r))

/-- Whether a weak reference to handle `r` still resolves. -/
def realmAlive (st : CacheState) (r : Nat) : Bool :=
  match findRealm st r with
  | some x => x.alive
  | none => false

def realmCloseCount (st : CacheState) (r : Nat) : Nat :=
  match findRealm st r with
  | some x => x.closeCount
  | none => 0

def realmOwner (st : CacheState) (r : Nat) : Nat :=
  match findRealm st r with
  | some x => x.owner
  | none => 0

/-- The live coordinators reached by iterating
`s_coordinators_per_path` and locking each weak pointer
(lines 165-169). -/
def registeredLiveCoords (st : CacheState) : List CoordObj :=
  st.registry.filterMap (fun e => findCoord st e.2)

/-- The `realms_to_close` vector gathered at lines 173-178: for every
registered live coordinator, the handles in its weak list whose weak
reference still resolves. -/
def collectRealmsToClose (st : CacheState) : List Nat :=
  (registeredLiveCoords st).flatMap
    (fun c => c.weakRealms.filter (fun r => realmAlive st r))

/-- Line 171: `coordinator->m_notifier = nullptr` for every registered
live coordinator. -/
def dropNotifiers (st : CacheState) : CacheState :=
  { st with coords := st.coords.map (fun c =>
      if st.registry.any (fun e => decide (e.2 = c.cid))
      then { c with hasNotifier := false } else c) }

/-- Model of `unregister_realm` (lines 151-157) run on handle `rid`'s
coordinator: remove from its weak list every entry that is expired or
is for this realm. -/
def unregisterRealm (st : CacheState) (rid : Nat) : CacheState :=
  { st with coords := st.coords.map (fun c =>
      if c.cid = realmOwner st rid then
        { c with weakRealms :=
            (c.weakRealms.filter (fun r => realmAlive st r && decide (r ≠ rid))) }
      else c) }

/-- Record one invocation of `close()` on handle `rid`. -/
def bumpClose (rid : Nat) (x : RealmObj) : RealmObj :=
  if x.rid = rid then { x with closeCount := x.closeCount + 1 } else x

/-- Modelled from the spec: `Realm::close` itself is not among the
sources (only `realm_coordinator.cpp` is), and the spec states that
closing a handle re-enters `unregister_handle` on its coordinator
("closing re-enters `unregister_handle`").  Closing a collected handle
whose weak reference still resolves runs `close()` once (counted) and
re-enters `unregister_realm`. -/
def closeRealm (st : CacheState) (rid : Nat) : CacheState :=
  if realmAlive st rid then
    unregisterRealm { st with realms := st.realms.map (bumpClose rid) } rid
  else st

/-- The loop at lines 186-190: lock each collected weak reference and
close it. -/
def closeAll (st : CacheState) (l : List Nat) : CacheState := l.foldl closeRealm st

/-- Model of `RealmCoordinator::clear_cache` (lines 159-191): under the
registry lock, drop the commit notifier of every registered live
coordinator and gather `realms_to_close`, then clear the whole
`s_coordinators_per_path` map; after releasing the lock, close every
collected handle.  Note the receiver coordinator plays no role: the
method only touches the static registry state. -/
def cache_clear_cache (st : CacheState) : CacheState :=
  closeAll { dropNotifiers st with registry := [] } (collectRealmsToClose st)

/-- Claim C8 as stated, at one receiver coordinator `cid`: `clear_cache`
wipes (only) this coordinator's registry entry, calls `close()` exactly
once on each handle this coordinator had cached (and on no other
handles), and wipes this coordinator's weak-handle list. -/
def c8ClaimAt (st : CacheState) (cid : Nat) : Prop :=
  (∀ e ∈ st.registry, e.2 ≠ cid → e ∈ (cache_clear_cache st).registry) ∧
  (∀ x ∈ st.realms, x.owner ≠ cid →
    realmCloseCount (cache_clear_cache st) x.rid = x.closeCount) ∧
  (∀ c ∈ (cache_clear_cache st).coords, c.cid = cid → c.weakRealms = [])

instance (st : CacheState) (cid : Nat) : Decidable (c8ClaimAt st cid) := by
  unfold c8ClaimAt; infer_instance

/-- Two coordinators, each registered with one live cached handle. -/
def c8CexState : CacheState :=
  ⟨[⟨0, true, [10]⟩, ⟨1, true, [11]⟩],
   [⟨10, 0, true, 0⟩, ⟨11, 1, true, 0⟩],
   [("a", 0), ("b", 1)]⟩

/-- A handle is cached by some registered live coordinator (so it is
in `realms_to_close` provided its weak reference resolves). -/
def cachedByRegistered (st : CacheState) (rid : Nat) : Prop :=
  ∃ c ∈ registeredLiveCoords st, rid ∈ c.weakRealms

instance (st : CacheState) (rid : Nat) : Decidable (cachedByRegistered st rid) := by
  unfold cachedByRegistered; infer_instance

/-- Well-formedness of the handle-management state: distinct handle and
coordinator identities, duplicate-free weak lists, every cached handle
owned by the caching coordinator, and each coordinator registered at
most once. -/
def WFCache (st : CacheState) : Prop :=
  st.realms.Pairwise (fun a b => a.rid ≠ b.rid) ∧
  st.coords.Pairwise (fun a b => a.cid ≠ b.cid) ∧
  (∀ c ∈ st.coords, c.weakRealms.Nodup) ∧
  (∀ c ∈ st.coords, ∀ r ∈ c.weakRealms, realmOwner st r = c.cid) ∧
  st.registry.Pairwise (fun a b => a.2 ≠ b.2)

instance (st : CacheState) : Decidable (WFCache st) := by
  unfold WFCache; infer_instance

theorem VersionID.ext_iff {a b : VersionID} : a = b ↔ a.version = b.version ∧ a.index = b.index := by
  constructor
  · rintro rfl; exact ⟨rfl, rfl⟩
  · rcases a with ⟨av, ai⟩; rcases b with ⟨bv, bi⟩
    rintro ⟨h1, h2⟩; simp_all

theorem VersionID.lt_def (a b : VersionID) :
    a < b ↔ a.version < b.version ∨ (a.version = b.version ∧ a.index < b.index) :=
  Iff.rfl

theorem VersionID.le_def (a b : VersionID) : a ≤ b ↔ a < b ∨ a = b := Iff.rfl

/-!
## Theorems for claims C3 and C10
-/

/-- C3: for every non-first-substantive open, `get_realm` throws
`MismatchedConfigError` exactly when `read_only`, `in_memory` or
`encryption_key` differ from the stored config, or `schema_version`
differs and is not the `NotVersioned` sentinel; each mismatch throws
its own field-specific message, and the `read_only` mismatch message
contains "read permissions". -/
theorem c3_config_compat (stored incoming : RealmConfig) :
    ((checkConfigCompat stored incoming).isSome ↔
      (stored.read_only ≠ incoming.read_only ∨
       stored.in_memory ≠ incoming.in_memory ∨
       stored.encryption_key ≠ incoming.encryption_key ∨
       (stored.schema_version ≠ incoming.schema_version ∧
        incoming.schema_version ≠ NotVersioned))) ∧
    (stored.read_only ≠ incoming.read_only →
      checkConfigCompat stored incoming = some readOnlyMsg) ∧
    strContains "read permissions" readOnlyMsg ∧
    (stored.read_only = incoming.read_only →
      stored.in_memory ≠ incoming.in_memory →
      checkConfigCompat stored incoming = some inMemoryMsg) ∧
    (stored.read_only = incoming.read_only →
      stored.in_memory = incoming.in_memory →
      stored.encryption_key ≠ incoming.encryption_key →
      checkConfigCompat stored incoming = some encryptionKeyMsg) ∧
    (stored.read_only = incoming.read_only →
      stored.in_memory = incoming.in_memory →
      stored.encryption_key = incoming.encryption_key →
      stored.schema_version ≠ incoming.schema_version →
      incoming.schema_version ≠ NotVersioned →
      checkConfigCompat stored incoming = some schemaVersionMsg) ∧
    (readOnlyMsg ≠ inMemoryMsg ∧ readOnlyMsg ≠ encryptionKeyMsg ∧
     readOnlyMsg ≠ schemaVersionMsg ∧ inMemoryMsg ≠ encryptionKeyMsg ∧
     inMemoryMsg ≠ schemaVersionMsg ∧ encryptionKeyMsg ≠ schemaVersionMsg) := by
  refine ⟨?_, ?_, ?_, ?_, ?_, ?_, ?_⟩
  · unfold checkConfigCompat
    by_cases h1 : stored.read_only = incoming.read_only <;>
      by_cases h2 : stored.in_memory = incoming.in_memory <;>
        by_cases h3 : stored.encryption_key = incoming.encryption_key <;>
          simp [h1, h2, h3]
  · intro h; simp [checkConfigCompat, h]
  · exact ⟨"Realm at path already opened with different ".data, ".".data, by decide⟩
  · intro h1 h2; simp [checkConfigCompat, h1, h2]
  · intro h1 h2 h3; simp [checkConfigCompat, h1, h2, h3]
  · intro h1 h2 h3 h4 h5; simp [checkConfigCompat, h1, h2, h3, h4, h5]
  · refine ⟨?_, ?_, ?_, ?_, ?_, ?_⟩ <;> decide

/-- Witness for C3: opening with flipped `read_only` yields the
field-specific "read permissions" message. -/
theorem c3_config_compat_witness :
    checkConfigCompat ⟨true, false, [], 1⟩ ⟨false, false, [], 1⟩ = some readOnlyMsg :=
  (c3_config_compat ⟨true, false, [], 1⟩ ⟨false, false, [], 1⟩).2.1 (by decide)

/-- C10: whenever `m_config.read_only` is false (the asserted
precondition), `send_commit_notifications` returns normally; the call
is a silent no-op when no commit notifier exists, and
`notify_others` is invoked exactly when the notifier is present.  A
read-only config instead trips the fatal assertion. -/
theorem c10_send_commit_notifications (read_only hasNotifier : Bool)
    (h : read_only = false) :
    send_commit_notifications read_only hasNotifier = some hasNotifier ∧
    (send_commit_notifications read_only hasNotifier).isSome ∧
    (hasNotifier = false → send_commit_notifications read_only hasNotifier = some false) ∧
    send_commit_notifications true hasNotifier = none := by
  subst h
  refine ⟨rfl, rfl, ?_, rfl⟩
  intro h2; subst h2; rfl

/-- Witness for C10: with a writable config and no commit notifier the
call succeeds as a silent no-op. -/
theorem c10_send_commit_notifications_witness :
    send_commit_notifications false false = some false ∧
    send_commit_notifications true false = none :=
  ⟨(c10_send_commit_notifications false false rfl).1,
   (c10_send_commit_notifications false false rfl).2.2.2⟩

theorem setReg_mem {reg : List (String × Nat)} {p : String} {c : Nat} {x : String × Nat}
    (hx : x ∈ setReg reg p c) : x ∈ reg ∨ x = (p, c) := by
  induction reg with
  | nil => simp only [setReg, List.mem_singleton] at hx; exact Or.inr hx
  | cons e es ih =>
    simp only [setReg] at hx
    by_cases h : e.1 = p
    · simp only [if_pos h, List.mem_cons] at hx
      rcases hx with h1 | h1
      · exact Or.inr h1
      · exact Or.inl (List.mem_cons_of_mem _ h1)
    · simp only [if_neg h, List.mem_cons] at hx
      rcases hx with h1 | h1
      · exact Or.inl (h1 ▸ List.mem_cons_self _ _)
      · rcases ih h1 with h2 | h2
        · exact Or.inl (List.mem_cons_of_mem _ h2)
        · exact Or.inr h2

theorem setReg_pairwise {reg : List (String × Nat)} {p : String} {c : Nat}
    (h : reg.Pairwise (fun a b => a.1 ≠ b.1)) :
    (setReg reg p c).Pairwise (fun a b => a.1 ≠ b.1) := by
  induction reg with
  | nil => simp [setReg]
  | cons e es ih =>
    rcases List.pairwise_cons.mp h with ⟨he, hes⟩
    simp only [setReg]
    by_cases hp : e.1 = p
    · rw [if_pos hp]
      refine List.pairwise_cons.mpr ⟨?_, hes⟩
      intro b hb
      exact hp ▸ he b hb
    · rw [if_neg hp]
      refine List.pairwise_cons.mpr ⟨?_, ih hes⟩
      intro b hb
      rcases setReg_mem hb with h1 | h1
      · exact he b h1
      · subst h1; exact hp

theorem findKey_setReg_self (reg : List (String × Nat)) (p : String) (c : Nat) :
    findKey (setReg reg p c) p = some (p, c) := by
  induction reg with
  | nil => exact List.find?_cons_of_pos _ (by simp)
  | cons e es ih =>
    simp only [setReg]
    by_cases h : e.1 = p
    · rw [if_pos h]
      exact List.find?_cons_of_pos _ (by simp)
    · rw [if_neg h]
      show List.find? _ (e :: setReg es p c) = _
      rw [List.find?_cons_of_neg _ (by simp [h])]
      exact ih

theorem findKey_setReg_ne (reg : List (String × Nat)) (p q : String) (c : Nat)
    (hne : q ≠ p) : findKey (setReg reg p c) q = findKey reg q := by
  have hpq : ¬p = q := fun h => hne h.symm
  induction reg with
  | nil =>
    show List.find? _ [(p, c)] = List.find? _ []
    rw [List.find?_cons_of_neg _ (by simp [hpq])]
  | cons e es ih =>
    simp only [setReg]
    by_cases h : e.1 = p
    · rw [if_pos h]
      show List.find? _ ((p, c) :: es) = List.find? _ (e :: es)
      rw [List.find?_cons_of_neg _ (by simp [hpq]),
          List.find?_cons_of_neg _ (by simp [h, hpq])]
    · rw [if_neg h]
      by_cases h2 : e.1 = q
      · show List.find? _ (e :: setReg es p c) = List.find? _ (e :: es)
        rw [List.find?_cons_of_pos _ (by simp [h2]),
            List.find?_cons_of_pos _ (by simp [h2])]
      · show List.find? _ (e :: setReg es p c) = List.find? _ (e :: es)
        rw [List.find?_cons_of_neg _ (by simp [h2]),
            List.find?_cons_of_neg _ (by simp [h2])]
        exact ih

theorem findKey_filter {reg : List (String × Nat)} {p : String} {e : String × Nat}
    (hf : findKey reg p = some e) {q : String × Nat → Bool} (hq : q e = true) :
    findKey (reg.filter q) p = some e := by
  induction reg with
  | nil => exact absurd hf (by simp [findKey])
  | cons a es ih =>
    by_cases ha : a.1 = p
    · have hfa : findKey (a :: es) p = some a :=
        List.find?_cons_of_pos _ (by simp [ha])
      rw [hfa] at hf
      injection hf with hf; subst hf
      rw [List.filter_cons_of_pos hq]
      exact List.find?_cons_of_pos _ (by simp [ha])
    · have hfr : findKey (a :: es) p = findKey es p :=
        List.find?_cons_of_neg _ (by simp [ha])
      rw [hfr] at hf
      rw [List.filter_cons]
      by_cases hqa : q a = true
      · rw [if_pos hqa]
        show List.find? _ (a :: es.filter q) = _
        rw [List.find?_cons_of_neg _ (by simp [ha])]
        exact ih hf
      · rw [if_neg hqa]
        exact ih hf

theorem regInv_fresh {s : RegState} (inv : RegInv s) (p : String)
    (hnone : ∀ e ∈ s.live, e.2 ≠ p) :
    RegInv ⟨s.live ++ [(s.nextId, p)], setReg s.registry p s.nextId, s.nextId + 1⟩ := by
  obtain ⟨i1, i2, i3, i4⟩ := inv
  refine ⟨?_, ?_, ?_, setReg_pairwise i4⟩
  · intro e he
    rcases List.mem_append.mp he with h | h
    · exact Nat.lt_succ_of_lt (i1 e h)
    · simp only [List.mem_singleton] at h; subst h; exact Nat.lt_succ_self _
  · refine List.pairwise_append.mpr ⟨i2, List.pairwise_singleton _ _, ?_⟩
    intro a ha b hb
    simp only [List.mem_singleton] at hb; subst hb
    exact hnone a ha
  · intro e he
    rcases List.mem_append.mp he with h | h
    · have hne : e.2 ≠ p := hnone e h
      show (findKey (setReg s.registry p s.nextId) e.2).map Prod.snd = some e.1
      rw [findKey_setReg_ne _ _ _ _ hne]
      exact i3 e h
    · simp only [List.mem_singleton] at h; subst h
      show (findKey (setReg s.registry p s.nextId) p).map Prod.snd = some s.nextId
      rw [findKey_setReg_self]
      rfl

theorem reach_regInv {s : RegState} (h : Reach s) : RegInv s := by
  induction h with
  | init => exact ⟨by simp, by simp, by simp, by simp⟩
  | get s p _ ih =>
    obtain ⟨i1, i2, i3, i4⟩ := ih
    unfold get_coordinator
    cases hc : lookupReg s p with
    | some c =>
      by_cases hl : isLiveCid s c = true
      · simp only [hc, hl, if_pos rfl]
        exact ⟨i1, i2, i3, i4⟩
      · simp only [hc, if_neg hl]
        refine regInv_fresh ⟨i1, i2, i3, i4⟩ p ?_
        intro e he hep
        apply hl
        have : lookupReg s p = some e.1 := hep ▸ i3 e he
        have hce : c = e.1 := by
          rw [this] at hc; injection hc with hc; exact hc.symm
        subst hce
        exact List.any_eq_true.mpr ⟨e, he, by simp⟩
    | none =>
      simp only [hc]
      refine regInv_fresh ⟨i1, i2, i3, i4⟩ p ?_
      intro e he hep
      have : lookupReg s p = some e.1 := hep ▸ i3 e he
      rw [this] at hc
      exact Option.noConfusion hc
  | destroy s c _ ih =>
    obtain ⟨i1, i2, i3, i4⟩ := ih
    refine ⟨?_, ?_, ?_, i4.sublist (List.filter_sublist _)⟩
    · intro e he
      exact i1 e (List.mem_of_mem_filter he)
    · exact i2.sublist (List.filter_sublist _)
    · intro e he
      have helive : e ∈ s.live := List.mem_of_mem_filter he
      have hold : lookupReg s e.2 = some e.1 := i3 e helive
      obtain ⟨f, hf, hsnd⟩ : ∃ f, findKey s.registry e.2 = some f ∧ f.2 = e.1 := by
        unfold lookupReg at hold
        cases hff : findKey s.registry e.2 with
        | none => rw [hff] at hold; exact Option.noConfusion hold
        | some f =>
          rw [hff] at hold
          exact ⟨f, rfl, by injection hold⟩
      have hq : (fun x : String × Nat =>
          (s.live.filter (fun l => decide (¬l.1 = c))).any
            (fun l => decide (l.1 = x.2))) f = true := by
        refine List.any_eq_true.mpr ⟨e, he, ?_⟩
        simp [hsnd]
      show (findKey (s.registry.filter _) e.2).map Prod.snd = some e.1
      rw [findKey_filter hf hq]
      simp [hsnd]

theorem pairwise_snd_filter_length {α : Type} {l : List (α × String)}
    (h : l.Pairwise (fun a b => a.2 ≠ b.2)) (p : String) :
    (l.filter (fun e => decide (e.2 = p))).length ≤ 1 := by
  induction l with
  | nil => simp
  | cons a es ih =>
    rcases List.pairwise_cons.mp h with ⟨ha, hes⟩
    simp only [List.filter_cons]
    by_cases hp : a.2 = p
    · have hnil : es.filter (fun e => decide (e.2 = p)) = [] := by
        refine List.filter_eq_nil_iff.mpr ?_
        intro b hb
        simp only [decide_eq_true_eq]
        intro hbp
        exact ha b hb (hp.trans hbp.symm)
      simp [hp, hnil]
    · simp only [decide_eq_false hp]
      exact ih hes

/-- C6: for every path at most one live coordinator exists at any time
(so a second coordinator for a path can only be created after the first
was fully dropped); `get_coordinator` returns the existing coordinator
unchanged whenever the stored weak reference still resolves, and
otherwise creates a fresh one and stores a weak reference to it; the
destructor sweeps every expired entry out of the registry map. -/
theorem c6_registry (s : RegState) (h : Reach s) :
    (∀ p, (s.live.filter (fun e => decide (e.2 = p))).length ≤ 1) ∧
    (∀ p c, lookupReg s p = some c → isLiveCid s c = true →
      get_coordinator s p = (c, s)) ∧
    (∀ p, lookupReg s p = none →
      get_coordinator s p =
        (s.nextId, ⟨s.live ++ [(s.nextId, p)], setReg s.registry p s.nextId,
          s.nextId + 1⟩)) ∧
    (∀ c, ∀ e ∈ (destroy_coordinator s c).registry,
      isLiveCid (destroy_coordinator s c) e.2 = true) := by
  obtain ⟨-, i2, -, -⟩ := reach_regInv h
  refine ⟨fun p => pairwise_snd_filter_length i2 p, ?_, ?_, ?_⟩
  · intro p c hc hl
    unfold get_coordinator
    rw [hc]
    simp [hl]
  · intro p hc
    unfold get_coordinator
    rw [hc]
  · intro c e he
    have := List.of_mem_filter he
    exact this

/-- Witness for C6 at a concrete reachable state: one coordinator
created for path `"a"`; a second lookup returns the same object. -/
theorem c6_registry_witness :
    lookupReg ⟨[(0, "a")], [("a", 0)], 1⟩ "a" = some 0 ∧
    get_coordinator ⟨[(0, "a")], [("a", 0)], 1⟩ "a" = (0, ⟨[(0, "a")], [("a", 0)], 1⟩) := by
  have hreach : Reach ⟨[(0, "a")], [("a", 0)], 1⟩ := by
    have h0 := Reach.get ⟨[], [], 0⟩ "a" Reach.init
    simp only [get_coordinator, lookupReg, findKey, List.find?] at h0
    exact h0
  refine ⟨rfl, ?_⟩
  exact (c6_registry _ hreach).2.1 "a" 0 rfl rfl

/-- Counterexample to C7 as stated: a notifier whose version is
`(UMAX, 1)` — not the sentinel `(UMAX, 0)`, hence "defined" in the
claim's sense — and a handle at `(UMAX, 2)`.  The claim requires a
return without advancing (stale target), but line 478 tests only the
`version` component against the maximum, so the code advances the
handle to the latest version instead. -/
theorem c7_counterexample :
    ¬c7Claim engZero ⟨[⟨1, ⟨UMAX, 1⟩, true, []⟩], [], none, none, false⟩ ⟨UMAX, 2⟩ := by
  intro h
  have h2 := h.2.1 (by decide) (by decide)
  exact absurd h2 (by decide)

/-- C7 (amended): `advance_to_ready` computes its target as the version
of the first active notifier whose version differs from the sentinel
`VersionID{}`; whenever the target's `version` component equals
`2 ^ 64 - 1` — in particular when no such notifier exists — it advances
the handle's transaction to the latest version and returns without
delivering; if the target (with `version` component below the maximum)
is strictly less than the handle transaction's current version it
returns without advancing or delivering; and it calls `deliver` on the
active notifiers only once the target equals the handle transaction's
current version. -/
theorem c7_advance_to_ready (E : Engine) (s : CoordState) (cur : VersionID) :
    ((get_notifier_version s.notifiers).version = UMAX →
      advance_to_ready E s cur = ⟨E.latest, false⟩) ∧
    ((get_notifier_version s.notifiers).version ≠ UMAX →
      get_notifier_version s.notifiers < cur →
      advance_to_ready E s cur = ⟨cur, false⟩) ∧
    ((advance_to_ready E s cur).delivered = true →
      (advance_to_ready E s cur).finalVersion = get_notifier_version s.notifiers ∧
      ¬get_notifier_version s.notifiers < cur ∧
      (get_notifier_version s.notifiers).version ≠ UMAX) := by
  unfold advance_to_ready
  by_cases h1 : (get_notifier_version s.notifiers).version = UMAX
  · simp [h1]
  · by_cases h2 : get_notifier_version s.notifiers < cur
    · simp [h1, h2]
    · simp [h1, h2]

/-- Witness for C7 (amended): an active notifier prepared at version
`(5, 0)` with the handle at `(3, 0)`: delivery happens exactly at the
target version. -/
theorem c7_advance_to_ready_witness :
    (advance_to_ready engZero ⟨[⟨1, ⟨5, 0⟩, true, []⟩], [], none, none, false⟩
      ⟨3, 0⟩).delivered = true ∧
    ((advance_to_ready engZero ⟨[⟨1, ⟨5, 0⟩, true, []⟩], [], none, none, false⟩
        ⟨3, 0⟩).finalVersion =
      get_notifier_version
        (⟨[⟨1, ⟨5, 0⟩, true, []⟩], [], none, none, false⟩ : CoordState).notifiers ∧
      ¬get_notifier_version
        (⟨[⟨1, ⟨5, 0⟩, true, []⟩], [], none, none, false⟩ : CoordState).notifiers < ⟨3, 0⟩ ∧
      (get_notifier_version
        (⟨[⟨1, ⟨5, 0⟩, true, []⟩], [], none, none, false⟩ : CoordState).notifiers).version ≠
        UMAX) :=
  ⟨by decide,
   (c7_advance_to_ready engZero ⟨[⟨1, ⟨5, 0⟩, true, []⟩], [], none, none, false⟩
     ⟨3, 0⟩).2.2 (by decide)⟩

theorem swapRemoveStep_length (l : List NotifierObj) (i : Nat) :
    (swapRemoveStep l i).length = l.length - 1 := by
  unfold swapRemoveStep
  split <;> simp

theorem dedupInnerGo_length (src : ListDesc) (ls : List ListDesc) (j : Nat) :
    (dedupInnerGo src ls j).length = ls.length := by
  induction j generalizing ls with
  | zero => rfl
  | succ j ih =>
    unfold dedupInnerGo
    split
    · rw [ih]; simp
    · exact ih ls

/-- C1: the claimed invariant — `new_notifiers` non-empty and
`async_error` unset implies the advancer transaction is pinned at the
minimum staged `version()` — is the intent of the spec (I2, P2) and of
the source's own `REALM_ASSERT` at line 341, but the code violates it:
after `clean_up_dead_notifiers` reaps a dead staged notifier that held
the strict minimum, the advancer stays pinned below the new minimum and
the assertion in `run_async_notifiers` fails (modelled as the run
returning `none`).  Concretely, from a fresh coordinator: register
notifier 1 at `(3, 0)`, register notifier 2 at `(5, 0)`, notifier 1's
Realm dies, then `run_async_notifiers` reaps notifier 1, leaving
`new_notifiers = [notifier 2]` with no error while the advancer is
still pinned at `(3, 0) ≠ (5, 0)`. -/
theorem c1_pin_min_assert_violated :
    (clean_up_dead_notifiers c1BugState).newNotifiers ≠ [] ∧
    (clean_up_dead_notifiers c1BugState).asyncError = false ∧
    (clean_up_dead_notifiers c1BugState).advancerSg = some (some ⟨3, 0⟩) ∧
    (∀ n ∈ (clean_up_dead_notifiers c1BugState).newNotifiers, n.version = ⟨5, 0⟩) ∧
    run_async_notifiers engZero c1BugState = none := by
  decide

/-!
## Claim C2: async-error latching
-/

theorem swapRemoveGo_all_alive (fuel : Nat) (l : List NotifierObj) (i : Nat)
    (h : ∀ n ∈ l, n.alive = true) : swapRemoveGo fuel l i = l := by
  induction fuel generalizing i with
  | zero => rfl
  | succ fuel ih =>
    unfold swapRemoveGo
    by_cases hi : i < l.length
    · rw [if_pos hi]
      have ha : (l.getD i dfltNotifier).alive = true := by
        apply h
        rw [List.getD_eq_getElem l dfltNotifier hi]
        exact List.getElem_mem hi
      rw [if_pos ha]
      exact ih (i + 1)
    · rw [if_neg hi]

theorem swapRemove_all_alive {l : List NotifierObj}
    (h : ∀ n ∈ l, n.alive = true) : swapRemove l = l :=
  swapRemoveGo_all_alive _ l 0 h

theorem didRemove_eq_false {l : List NotifierObj}
    (h : ∀ n ∈ l, n.alive = true) : didRemove l = false := by
  unfold didRemove
  rw [List.any_eq_false]
  intro n hn
  simp [h n hn]

theorem clean_up_asyncError (s : CoordState) :
    (clean_up_dead_notifiers s).asyncError = s.asyncError := rfl

theorem clean_up_id {s : CoordState}
    (h1 : ∀ n ∈ s.notifiers, n.alive = true)
    (h2 : ∀ n ∈ s.newNotifiers, n.alive = true) :
    clean_up_dead_notifiers s = s := by
  unfold clean_up_dead_notifiers
  rw [swapRemove_all_alive h1, swapRemove_all_alive h2,
    didRemove_eq_false h1, didRemove_eq_false h2]
  simp

theorem pin_version_error {E : Engine} {s : CoordState} (herr : s.asyncError = true)
    (version index : Nat) : pin_version E s version index = s := by
  unfold pin_version
  rw [if_pos herr]

theorem register_notifier_error {E : Engine} {s : CoordState}
    (herr : s.asyncError = true) (n : NotifierObj) :
    register_notifier E s n = { s with newNotifiers := s.newNotifiers ++ [n] } := by
  unfold register_notifier
  rw [pin_version_error herr]

theorem run_async_notifiers_error {E : Engine} {s : CoordState}
    (herr : s.asyncError = true)
    (h1 : ∀ n ∈ s.notifiers, n.alive = true)
    (h2 : ∀ n ∈ s.newNotifiers, n.alive = true) :
    run_async_notifiers E s =
      some ⟨{ s with notifiers := s.notifiers ++ s.newNotifiers, newNotifiers := [] },
        [], []⟩ := by
  obtain ⟨ns, nn, asg, nsg, er⟩ := s
  simp only at herr; subst herr
  unfold run_async_notifiers
  rw [clean_up_id h1 h2]
  by_cases hb : ns.isEmpty && nn.isEmpty
  · have hns : ns = [] := by
      rcases Bool.and_eq_true_iff.mp hb with ⟨ha, -⟩
      exact List.isEmpty_iff.mp ha
    have hnn : nn = [] := by
      rcases Bool.and_eq_true_iff.mp hb with ⟨-, hbb⟩
      exact List.isEmpty_iff.mp hbb
    subst hns; subst hnn
    simp
  · simp only [hb]
    simp

/-- C2: once `m_async_error` is set it is never cleared by any
coordinator transition; while it is set, `pin_version` is a no-op,
`run_async_notifiers` moves every staged notifier into the active list
and returns without opening or advancing any transaction (both
shared-group slots are left exactly as they were), and
`register_notifier` still succeeds, appending the notifier to
`m_new_notifiers`. -/
theorem c2_async_error_latched (E : Engine) (s : CoordState)
    (herr : s.asyncError = true)
    (h1 : ∀ n ∈ s.notifiers, n.alive = true)
    (h2 : ∀ n ∈ s.newNotifiers, n.alive = true) :
    (∀ version index, pin_version E s version index = s) ∧
    (∀ n, register_notifier E s n =
      { s with newNotifiers := s.newNotifiers ++ [n] }) ∧
    (run_async_notifiers E s =
      some ⟨{ s with notifiers := s.notifiers ++ s.newNotifiers, newNotifiers := [] },
        [], []⟩) ∧
    (∀ r, run_async_notifiers E s = some r →
      r.state.advancerSg = s.advancerSg ∧ r.state.notifierSg = s.notifierSg ∧
      r.state.newNotifiers = [] ∧
      r.state.notifiers = s.notifiers ++ s.newNotifiers) ∧
    (∀ s', Step E s s' → s'.asyncError = true) := by
  have hrun := run_async_notifiers_error (E := E) herr h1 h2
  refine ⟨fun v i => pin_version_error herr v i,
    fun n => register_notifier_error herr n, hrun, ?_, ?_⟩
  · intro r hr
    rw [hrun] at hr
    injection hr with hr
    subst hr
    exact ⟨rfl, rfl, rfl, rfl⟩
  · rintro s' hs
    cases hs with
    | pin version index => rw [pin_version_error herr]; exact herr
    | reg n => rw [register_notifier_error herr]; exact herr
    | kill i => exact herr
    | cleanup => rw [clean_up_asyncError]; exact herr
    | run r hr =>
      rw [hrun] at hr
      injection hr with hr
      subst hr
      exact herr

/-- Witness for C2: a coordinator with the error latched, one active and
one staged notifier: the staged notifier is drained into the active
list, the shared-group slots are untouched, and registration still
appends. -/
theorem c2_async_error_latched_witness :
    run_async_notifiers engZero
      ⟨[⟨1, ⟨4, 0⟩, true, []⟩], [⟨2, ⟨5, 0⟩, true, []⟩], none, none, true⟩ =
      some ⟨⟨[⟨1, ⟨4, 0⟩, true, []⟩, ⟨2, ⟨5, 0⟩, true, []⟩], [], none, none, true⟩,
        [], []⟩ ∧
    pin_version engZero
      ⟨[⟨1, ⟨4, 0⟩, true, []⟩], [⟨2, ⟨5, 0⟩, true, []⟩], none, none, true⟩ 3 0 =
      ⟨[⟨1, ⟨4, 0⟩, true, []⟩], [⟨2, ⟨5, 0⟩, true, []⟩], none, none, true⟩ :=
  ⟨(c2_async_error_latched engZero
      ⟨[⟨1, ⟨4, 0⟩, true, []⟩], [⟨2, ⟨5, 0⟩, true, []⟩], none, none, true⟩
      rfl (by decide) (by decide)).2.2.1,
   (c2_async_error_latched engZero
      ⟨[⟨1, ⟨4, 0⟩, true, []⟩], [⟨2, ⟨5, 0⟩, true, []⟩], none, none, true⟩
      rfl (by decide) (by decide)).1 3 0⟩

theorem sortByVersion_perm (l : List NotifierObj) : List.Perm (sortByVersion l) l :=
  List.perm_insertionSort _ l

theorem sortByVersion_sorted (l : List NotifierObj) :
    List.Sorted (fun a b : NotifierObj => a.version ≤ b.version) (sortByVersion l) :=
  List.sorted_insertionSort _ l

theorem sortByVersion_head_version (l : List NotifierObj) (v : VersionID)
    (hne : l ≠ []) (hlb : ∀ n ∈ l, v ≤ n.version) (hin : ∃ n ∈ l, n.version = v) :
    ((sortByVersion l).headD dfltNotifier).version = v := by
  obtain ⟨m, hm, hmv⟩ := hin
  have hperm := sortByVersion_perm l
  have hsne : sortByVersion l ≠ [] := by
    intro h
    rw [h] at hperm
    exact hne hperm.nil_eq.symm
  cases hs : sortByVersion l with
  | nil => exact absurd hs hsne
  | cons hd t =>
    have hmem : hd ∈ l := by
      refine hperm.subset ?_
      rw [hs]
      exact List.mem_cons_self _ _
    have h1 : v ≤ hd.version := hlb hd hmem
    have hmsort : m ∈ hd :: t := by
      rw [← hs]
      exact hperm.mem_iff.mpr hm
    have h2 : hd.version ≤ v := by
      rcases List.mem_cons.mp hmsort with h3 | h3
      · rw [← hmv, h3]
      · have hsorted := sortByVersion_sorted l
        rw [hs] at hsorted
        have := List.rel_of_sorted_cons hsorted m h3
        rw [hmv] at this
        exact this
    simpa using le_antisymm h2 h1

theorem updateLast_length {α : Type} (f : α → α) (l : List α) :
    (updateLast f l).length = l.length := by
  induction l with
  | nil => rfl
  | cons a t ih =>
    cases t with
    | nil => rfl
    | cons b t2 =>
      show (a :: updateLast f (b :: t2)).length = (a :: b :: t2).length
      simpa using ih

theorem updateLast_getD_lt {α : Type} (f : α → α) (l : List α) (m : Nat) (d : α)
    (h : m + 1 < l.length) : (updateLast f l).getD m d = l.getD m d := by
  induction l generalizing m with
  | nil => rfl
  | cons a t ih =>
    cases t with
    | nil => simp at h
    | cons b t2 =>
      show (a :: updateLast f (b :: t2)).getD m d = (a :: b :: t2).getD m d
      cases m with
      | zero => rfl
      | succ m =>
        simp only [List.getD_cons_succ]
        exact ih m (by simpa using h)

theorem updateLast_getD_last {α : Type} (f : α → α) (l : List α) (d : α)
    (hne : l ≠ []) :
    (updateLast f l).getD (l.length - 1) d = f (l.getD (l.length - 1) d) := by
  induction l with
  | nil => exact absurd rfl hne
  | cons a t ih =>
    cases t with
    | nil => rfl
    | cons b t2 =>
      show (a :: updateLast f (b :: t2)).getD ((a :: b :: t2).length - 1) d =
        f ((a :: b :: t2).getD ((a :: b :: t2).length - 1) d)
      have hlen : (a :: b :: t2).length - 1 = (b :: t2).length - 1 + 1 := by
        simp
      rw [hlen, List.getD_cons_succ, List.getD_cons_succ]
      exact ih (by simp)

theorem pushSlot_length (E : Engine) (cur nv : VersionID) (ci : List TCI) :
    (pushSlot E cur nv ci).length = ci.length + 1 := by
  simp [pushSlot, updateLast_length]

theorem fanInGo_length (E : Engine) (l : List NotifierObj) (cur : VersionID)
    (ci : List TCI) (asg : List (NotifierObj × Nat)) :
    (fanInGo E l cur ci asg).1.length = ci.length + cdist cur l := by
  induction l generalizing cur ci asg with
  | nil => simp [fanInGo, updateLast_length, cdist]
  | cons n rest ih =>
    unfold fanInGo
    by_cases h : n.version = cur
    · rw [if_pos h, ih]
      simp [cdist, h, updateLast_length]
    · rw [if_neg h, ih]
      simp only [cdist, if_neg h, updateLast_length, pushSlot_length]
      omega

theorem fanInGo_assign_fst (E : Engine) (l : List NotifierObj) (cur : VersionID)
    (ci : List TCI) (asg : List (NotifierObj × Nat)) :
    (fanInGo E l cur ci asg).2.map Prod.fst = asg.map Prod.fst ++ l := by
  induction l generalizing cur ci asg with
  | nil => simp [fanInGo]
  | cons n rest ih =>
    unfold fanInGo
    by_cases h : n.version = cur
    · rw [if_pos h, ih]
      simp
    · rw [if_neg h, ih]
      simp

theorem open_helper_absent {E : Engine} {s : CoordState} (h : s.notifierSg = none)
    (hof : E.openFails = false) :
    open_helper_shared_group E s = { s with notifierSg := some (some E.latest) } := by
  unfold open_helper_shared_group
  rw [h, hof]
  simp

theorem open_helper_live {E : Engine} {s : CoordState} {w : VersionID}
    (hsg : s.notifierSg = some (some w)) (hna : s.notifiers ≠ []) :
    open_helper_shared_group E s = { s with notifierSg := some (some w) } := by
  obtain ⟨ns, nn, adv, nsg, er⟩ := s
  simp only at hsg hna
  subst hsg
  unfold open_helper_shared_group
  have hnsE : ns.isEmpty = false := by
    cases ns with
    | nil => exact absurd rfl hna
    | cons a t => rfl
  simp [hnsE]

theorem mergeStep_length (ci : List TCI) (i : Nat) :
    (mergeStep ci i).length = ci.length := by
  simp [mergeStep]

theorem mergePassGo_length (ci : List TCI) (i : Nat) :
    (mergePassGo ci i).length = ci.length := by
  induction i generalizing ci with
  | zero => rfl
  | succ i ih =>
    cases i with
    | zero => rfl
    | succ i2 =>
      show (mergePassGo (mergeStep ci (i2 + 2)) (i2 + 1)).length = ci.length
      rw [ih, mergeStep_length]

theorem mergePass_length (ci : List TCI) : (mergePass ci).length = ci.length :=
  mergePassGo_length ci (ci.length - 1)

theorem dedupPass_length (ci : List TCI) : (dedupPass ci).length = ci.length := by
  simp [dedupPass]

theorem cdist_sorted_eq (l : List NotifierObj) (cur : VersionID)
    (hs : List.Sorted (fun a b : NotifierObj => a.version ≤ b.version) l)
    (hlb : ∀ n ∈ l, cur ≤ n.version) :
    cdist cur l =
      (insert cur (l.map (fun n => n.version)).toFinset).card - 1 := by
  induction l generalizing cur with
  | nil => simp [cdist]
  | cons n rest ih =>
    have hs' : List.Sorted (fun a b : NotifierObj => a.version ≤ b.version) rest :=
      hs.of_cons
    have hlb' : ∀ m ∈ rest, n.version ≤ m.version :=
      fun m hm => List.rel_of_sorted_cons hs m hm
    by_cases h : n.version = cur
    · show (if n.version = cur then 0 else 1) + cdist n.version rest = _
      rw [if_pos h, ih n.version hs' hlb']
      subst h
      simp [List.map_cons, List.toFinset_cons, Finset.insert_idem]
    · show (if n.version = cur then 0 else 1) + cdist n.version rest = _
      rw [if_neg h, ih n.version hs' hlb']
      have hcur_lt : cur < n.version :=
        lt_of_le_of_ne (hlb n (List.mem_cons_self _ _)) (fun hh => h hh.symm)
      have hnotmem : cur ∉ insert n.version (rest.map (fun n => n.version)).toFinset := by
        intro hmem
        rcases Finset.mem_insert.mp hmem with h2 | h2
        · exact absurd h2.symm (ne_of_gt hcur_lt)
        · rw [List.mem_toFinset] at h2
          obtain ⟨m, hm, hmv⟩ := List.mem_map.mp h2
          have hle := hlb' m hm
          rw [hmv] at hle
          exact absurd hle (not_le_of_lt hcur_lt)
      have hpos : 0 < (insert n.version (rest.map (fun n => n.version)).toFinset).card :=
        Finset.card_pos.mpr ⟨n.version, Finset.mem_insert_self _ _⟩
      simp only [List.map_cons, List.toFinset_cons]
      rw [Finset.card_insert_of_not_mem hnotmem]
      omega

theorem run_success_eq (E : Engine) (s : CoordState) (w v : VersionID)
    (herr : s.asyncError = false)
    (h1 : ∀ n ∈ s.notifiers, n.alive = true)
    (h2 : ∀ n ∈ s.newNotifiers, n.alive = true)
    (hne : s.newNotifiers ≠ [])
    (hopen : open_helper_shared_group E s = { s with notifierSg := some (some w) })
    (hadv : s.advancerSg = some (some v))
    (hv : v = ((sortByVersion s.newNotifiers).headD dfltNotifier).version) :
    run_async_notifiers E s =
      some ⟨{ s with
          notifiers := s.notifiers ++ sortByVersion s.newNotifiers,
          newNotifiers := [],
          advancerSg := some none,
          notifierSg := some (some E.latest) },
        dedupPass (mergePass
          (recordTables E w E.latest (addListsAll s.notifiers
              ((fanInGo E (sortByVersion s.newNotifiers) v
                [emptyTCI, emptyTCI] []).1.headD emptyTCI))
            :: (fanInGo E (sortByVersion s.newNotifiers) v
                [emptyTCI, emptyTCI] []).1.tail)),
        (fanInGo E (sortByVersion s.newNotifiers) v [emptyTCI, emptyTCI] []).2⟩ := by
  have hclean : clean_up_dead_notifiers s = s := clean_up_id h1 h2
  have halive4 : ∀ n ∈ s.notifiers ++ sortByVersion s.newNotifiers, n.alive = true := by
    intro n hn
    rcases List.mem_append.mp hn with h | h
    · exact h1 n h
    · exact h2 n ((sortByVersion_perm s.newNotifiers).subset h)
  obtain ⟨ns, nn, adv, nsg, er⟩ := s
  simp only at herr hadv hne hclean hopen hv halive4 ⊢
  subst herr hadv
  have hnnE : nn.isEmpty = false := by
    cases nn with
    | nil => exact absurd rfl hne
    | cons a t => rfl
  have hclean4 :
      clean_up_dead_notifiers
        ⟨ns ++ sortByVersion nn, [], some none, some (some E.latest), false⟩ =
      ⟨ns ++ sortByVersion nn, [], some none, some (some E.latest), false⟩ :=
    clean_up_id halive4 (by simp)
  unfold run_async_notifiers
  rw [hclean]
  simp only [hnnE, Bool.and_false, Bool.false_eq_true, if_false, Bool.not_false,
    if_true, hopen]
  rw [if_pos hv, hclean4]

theorem run_success_nostaged_eq (E : Engine) (s : CoordState) (w : VersionID)
    (herr : s.asyncError = false)
    (h1 : ∀ n ∈ s.notifiers, n.alive = true)
    (hna : s.notifiers ≠ [])
    (h2 : s.newNotifiers = [])
    (hopen : open_helper_shared_group E s = { s with notifierSg := some (some w) }) :
    run_async_notifiers E s =
      some ⟨{ s with notifierSg := some (some E.latest) },
        dedupPass (mergePass
          [recordTables E w E.latest (addListsAll s.notifiers emptyTCI)]),
        []⟩ := by
  have hclean : clean_up_dead_notifiers s = s := clean_up_id h1 (by rw [h2]; simp)
  obtain ⟨ns, nn, adv, nsg, er⟩ := s
  simp only at herr h2 hclean hopen hna ⊢
  subst herr h2
  have hnsE : ns.isEmpty = false := by
    cases ns with
    | nil => exact absurd rfl hna
    | cons a t => rfl
  have hclean4 :
      clean_up_dead_notifiers ⟨ns, [], adv, some (some E.latest), false⟩ =
      ⟨ns, [], adv, some (some E.latest), false⟩ :=
    clean_up_id h1 (by simp)
  unfold run_async_notifiers
  rw [hclean]
  simp only [hnsE, Bool.false_and, Bool.false_eq_true, if_false, Bool.not_false,
    if_true, hopen]
  simp only [List.isEmpty_nil, if_true, hclean4]

/-- C4: in an error-free `run_async_notifiers` cycle, `change_info` has
size 1 when no notifiers are staged, and otherwise final size 1 plus the
number of distinct origin versions among the staged notifiers; when
notifiers were staged, the advancer transaction's read has been released
by the end of the fan-in. -/
theorem c4_change_info_size (E : Engine) (s : CoordState) (w v : VersionID)
    (herr : s.asyncError = false)
    (h1 : ∀ n ∈ s.notifiers, n.alive = true)
    (h2 : ∀ n ∈ s.newNotifiers, n.alive = true)
    (hna : s.notifiers ≠ [])
    (hsg : s.notifierSg = some (some w))
    (hadv : s.newNotifiers ≠ [] → s.advancerSg = some (some v))
    (hmin : s.newNotifiers ≠ [] →
      (∀ n ∈ s.newNotifiers, v ≤ n.version) ∧ ∃ n ∈ s.newNotifiers, n.version = v) :
    ∃ r, run_async_notifiers E s = some r ∧
      (s.newNotifiers = [] → r.changeInfo.length = 1) ∧
      (s.newNotifiers ≠ [] →
        r.changeInfo.length =
          1 + ((s.newNotifiers.map (fun n => n.version)).toFinset).card ∧
        r.state.advancerSg = some none) := by
  have hopen : open_helper_shared_group E s = { s with notifierSg := some (some w) } :=
    open_helper_live hsg hna
  by_cases hstage : s.newNotifiers = []
  · refine ⟨_, run_success_nostaged_eq E s w herr h1 hna hstage hopen, ?_, ?_⟩
    · intro _
      simp [dedupPass_length, mergePass_length]
    · intro h
      exact absurd hstage h
  · have hv : v = ((sortByVersion s.newNotifiers).headD dfltNotifier).version :=
      (sortByVersion_head_version s.newNotifiers v hstage (hmin hstage).1
        (hmin hstage).2).symm
    refine ⟨_, run_success_eq E s w v herr h1 h2 hstage hopen (hadv hstage) hv, ?_, ?_⟩
    · intro h
      exact absurd h hstage
    · intro _
      refine ⟨?_, rfl⟩
      have hlen := fanInGo_length E (sortByVersion s.newNotifiers) v
        [emptyTCI, emptyTCI] []
      have hlb' : ∀ n ∈ sortByVersion s.newNotifiers, v ≤ n.version :=
        fun n hn => (hmin hstage).1 n ((sortByVersion_perm s.newNotifiers).subset hn)
      have hcd := cdist_sorted_eq (sortByVersion s.newNotifiers) v
        (sortByVersion_sorted s.newNotifiers) hlb'
      have hvin : v ∈ ((sortByVersion s.newNotifiers).map
          (fun n => n.version)).toFinset := by
        rw [List.mem_toFinset, List.mem_map]
        obtain ⟨n, hn, hnv⟩ := (hmin hstage).2
        exact ⟨n, (sortByVersion_perm s.newNotifiers).mem_iff.mpr hn, hnv⟩
      have hfs : ((sortByVersion s.newNotifiers).map (fun n => n.version)).toFinset =
          (s.newNotifiers.map (fun n => n.version)).toFinset :=
        List.toFinset_eq_of_perm _ _ ((sortByVersion_perm s.newNotifiers).map _)
      have hins : insert v ((sortByVersion s.newNotifiers).map
          (fun n => n.version)).toFinset =
          ((sortByVersion s.newNotifiers).map (fun n => n.version)).toFinset :=
        Finset.insert_eq_self.mpr hvin
      have hpos : 0 < ((sortByVersion s.newNotifiers).map
          (fun n => n.version)).toFinset.card :=
        Finset.card_pos.mpr ⟨v, hvin⟩
      simp only [dedupPass_length, mergePass_length, List.length_cons,
        List.length_tail]
      rw [hlen] at *
      rw [hcd, hins, ← hfs]
      simp only [List.length_cons, List.length_nil] at hlen ⊢
      omega

/-- Witness for C4 at the spec's S4 scenario: active notifiers at
version `(5, 0)`, staged notifiers at `(3, 0)` and `(5, 0)`:
`change_info` ends with length 3 and the advancer's read is released. -/
theorem c4_change_info_size_witness :
    ∃ r, run_async_notifiers engZero
        ⟨[⟨0, ⟨5, 0⟩, true, []⟩],
         [⟨1, ⟨3, 0⟩, true, []⟩, ⟨2, ⟨5, 0⟩, true, []⟩],
         some (some ⟨3, 0⟩), some (some ⟨5, 0⟩), false⟩ = some r ∧
      r.changeInfo.length = 3 ∧ r.state.advancerSg = some none := by
  obtain ⟨r, hr, -, h3⟩ := c4_change_info_size engZero
    ⟨[⟨0, ⟨5, 0⟩, true, []⟩],
     [⟨1, ⟨3, 0⟩, true, []⟩, ⟨2, ⟨5, 0⟩, true, []⟩],
     some (some ⟨3, 0⟩), some (some ⟨5, 0⟩), false⟩ ⟨5, 0⟩ ⟨3, 0⟩
    rfl (by decide) (by decide) (by decide) rfl (fun _ => rfl) (fun _ => by decide)
  obtain ⟨hlen, hadv⟩ := h3 (by decide)
  refine ⟨r, hr, ?_, hadv⟩
  rw [hlen]
  decide

/-!
## Claim C5: the backwards merge gives each staged notifier its own
origin-to-latest aggregate
-/

theorem getD_set_ne {α : Type} (l : List α) (i j : Nat) (x d : α) (h : i ≠ j) :
    (l.set i x).getD j d = l.getD j d := by
  simp [List.getD, List.getElem?_set_ne h]

theorem getD_set_self {α : Type} (l : List α) (i : Nat) (x d : α)
    (h : i < l.length) : (l.set i x).getD i d = x := by
  simp [List.getD, List.getElem?_set_self, h]

theorem headD_eq_getD {α : Type} (l : List α) (d : α) : l.headD d = l.getD 0 d := by
  cases l <;> rfl

theorem lastTCI_eq_getD (ci : List TCI) :
    lastTCI ci = ci.getD (ci.length - 1) emptyTCI := by
  induction ci with
  | nil => rfl
  | cons a t ih =>
    cases t with
    | nil => rfl
    | cons b t2 =>
      show lastTCI (b :: t2) = _
      rw [ih]
      rfl

theorem getD_map_range {α : Type} (f : Nat → α) (N j : Nat) (d : α) :
    ((List.range N).map f).getD j d = if j < N then f j else d := by
  by_cases h : j < N
  · rw [if_pos h, List.getD_eq_getElem _ _ (by simpa using h)]
    simp
  · rw [if_neg h]
    exact List.getD_eq_default _ _ (by simpa using h)

theorem tciTableAt_recordTables (E : Engine) (a b : VersionID) (t : TCI) (j : Nat) :
    tciTableAt j (recordTables E a b t) = tciTableAt j t ∪ E.seg a b j := by
  show tablesAt (recordTables E a b t).tables j = _
  unfold recordTables
  show tablesAt ((List.range _).map _) j = _
  unfold tablesAt
  rw [getD_map_range]
  by_cases h : j < max t.tables.length E.ntables
  · rw [if_pos h]
    rfl
  · rw [if_neg h]
    have h1 : t.tables.length ≤ j := le_trans (le_max_left _ _) (le_of_not_lt h)
    have h2 : E.ntables ≤ j := le_trans (le_max_right _ _) (le_of_not_lt h)
    show ∅ = tablesAt t.tables j ∪ E.seg a b j
    unfold tablesAt
    rw [List.getD_eq_default _ _ h1, E.seg_outside a b j h2]
    simp

theorem recordTables_tables_ne_nil (E : Engine) (a b : VersionID) (t : TCI)
    (h : 0 < E.ntables) : (recordTables E a b t).tables ≠ [] := by
  unfold recordTables
  simp only [ne_eq, List.map_eq_nil_iff, List.range_eq_nil]
  omega

theorem addLists_tables (n : NotifierObj) (t : TCI) : (addLists n t).tables = t.tables :=
  rfl

theorem addListsAll_tables (ns : List NotifierObj) (t : TCI) :
    (addListsAll ns t).tables = t.tables := by
  induction ns generalizing t with
  | nil => rfl
  | cons n rest ih =>
    show (addListsAll rest (addLists n t)).tables = t.tables
    rw [ih]
    rfl

theorem tciTableAt_addListsAll (ns : List NotifierObj) (t : TCI) (j : Nat) :
    tciTableAt j (addListsAll ns t) = tciTableAt j t := by
  show tablesAt (addListsAll ns t).tables j = _
  rw [addListsAll_tables]
  rfl

theorem clearLists_tables (t : TCI) : (clearLists t).tables = t.tables := rfl

theorem tablesAt_unionTables (p c : List (Finset Nat)) (j : Nat) :
    tablesAt (unionTables p c) j = tablesAt p j ∪ tablesAt c j := by
  induction p generalizing c j with
  | nil =>
    cases c with
    | nil => simp [unionTables, tablesAt]
    | cons y ys => simp [unionTables, tablesAt]
  | cons x xs ih =>
    cases c with
    | nil => simp [unionTables, tablesAt]
    | cons y ys =>
      cases j with
      | zero => simp [unionTables, tablesAt]
      | succ j =>
        show tablesAt ((x ∪ y) :: unionTables xs ys) (j + 1) = _
        unfold tablesAt
        simp only [List.getD_cons_succ]
        exact ih ys j

theorem tablesAt_mergeTables (p c : List (Finset Nat)) (j : Nat) :
    tablesAt (mergeTables p c) j = tablesAt p j ∪ tablesAt c j := by
  unfold mergeTables
  by_cases hc : c = []
  · rw [if_pos hc, hc]
    simp [tablesAt]
  · rw [if_neg hc]
    by_cases hp : p = []
    · rw [if_pos hp, hp]
      simp [tablesAt]
    · rw [if_neg hp]
      exact tablesAt_unionTables p c j

theorem unionOver_append (l1 l2 : List (Finset Nat)) :
    unionOver (l1 ++ l2) = unionOver l1 ∪ unionOver l2 := by
  induction l1 with
  | nil => simp [unionOver]
  | cons a t ih =>
    show a ∪ unionOver (t ++ l2) = (a ∪ unionOver t) ∪ unionOver l2
    rw [ih, Finset.union_assoc]

theorem rangeUnion_empty (ci : List TCI) (j k m : Nat) (h : m < k) :
    rangeUnion ci j k m = ∅ := by
  unfold rangeUnion
  rw [show m + 1 - k = 0 by omega]
  rfl

theorem rangeUnion_split_first (ci : List TCI) (j k m : Nat) (h : k ≤ m) :
    rangeUnion ci j k m =
      tciTableAt j (ci.getD k emptyTCI) ∪ rangeUnion ci j (k + 1) m := by
  unfold rangeUnion
  rw [show m + 1 - k = (m - k) + 1 by omega, List.range'_succ,
    show m + 1 - (k + 1) = m - k by omega]
  rfl

theorem rangeUnion_split_last (ci : List TCI) (j k m : Nat) (h : k ≤ m) (hm : 1 ≤ m) :
    rangeUnion ci j k m =
      rangeUnion ci j k (m - 1) ∪ tciTableAt j (ci.getD m emptyTCI) := by
  by_cases hkm : k = m
  · subst hkm
    rw [rangeUnion_split_first ci j k k (le_refl k),
      rangeUnion_empty ci j (k + 1) k (by omega),
      rangeUnion_empty ci j k (k - 1) (by omega)]
    simp
  · unfold rangeUnion
    rw [show m + 1 - k = (m - k) + 1 by omega]
    have hc : List.range' k ((m - k) + 1) 1 =
        List.range' k (m - k) 1 ++ [k + 1 * (m - k)] :=
      List.range'_concat k (m - k)
    simp only [one_mul] at hc
    rw [hc, List.map_append, unionOver_append,
      show m - 1 + 1 - k = m - k by omega, show k + (m - k) = m by omega]
    simp [unionOver]

theorem rangeUnion_single (ci : List TCI) (j k : Nat) :
    rangeUnion ci j k k = tciTableAt j (ci.getD k emptyTCI) := by
  rw [rangeUnion_split_first ci j k k (le_refl k),
    rangeUnion_empty ci j (k + 1) k (by omega)]
  simp

theorem rangeUnion_congr (ci ci' : List TCI) (j k m : Nat)
    (h : ∀ idx, k ≤ idx → idx ≤ m → ci'.getD idx emptyTCI = ci.getD idx emptyTCI) :
    rangeUnion ci' j k m = rangeUnion ci j k m := by
  unfold rangeUnion
  congr 1
  refine List.map_congr_left ?_
  intro idx hidx
  rw [List.mem_range'_1] at hidx
  rw [h idx hidx.1 (by omega)]

theorem mergeStep_getD (ci : List TCI) (i k : Nat) (hk : k ≠ i - 1) :
    (mergeStep ci i).getD k emptyTCI = ci.getD k emptyTCI := by
  unfold mergeStep
  exact getD_set_ne _ _ _ _ _ (fun h => hk h.symm)

theorem mergeStep_getD_self (ci : List TCI) (i : Nat) (hi : i - 1 < ci.length) (j : Nat) :
    tciTableAt j ((mergeStep ci i).getD (i - 1) emptyTCI) =
      tciTableAt j (ci.getD (i - 1) emptyTCI) ∪ tciTableAt j (ci.getD i emptyTCI) := by
  unfold mergeStep
  rw [getD_set_self _ _ _ _ hi]
  show tablesAt (mergeTables _ _) j = _
  rw [tablesAt_mergeTables]
  rfl

theorem mergeStep_length2 (ci : List TCI) (i : Nat) :
    (mergeStep ci i).length = ci.length := mergeStep_length ci i

theorem mergePassGo_getD_of_gt (ci : List TCI) (i k : Nat) (hk : i < k ∨ k = 0) :
    (mergePassGo ci i).getD k emptyTCI = ci.getD k emptyTCI := by
  induction i generalizing ci with
  | zero => rfl
  | succ i ih =>
    cases i with
    | zero => rfl
    | succ i2 =>
      show (mergePassGo (mergeStep ci (i2 + 2)) (i2 + 1)).getD k emptyTCI = _
      rw [ih _ (by omega)]
      exact mergeStep_getD ci (i2 + 2) k (by omega)

theorem mergePassGo_getD (ci : List TCI) (i : Nat) (hi : i < ci.length) (k j : Nat)
    (hk : 1 ≤ k) :
    tciTableAt j ((mergePassGo ci i).getD k emptyTCI) =
      if k ≤ i then rangeUnion ci j k i
      else tciTableAt j (ci.getD k emptyTCI) := by
  induction i generalizing ci with
  | zero =>
    rw [if_neg (by omega)]
    rfl
  | succ i ih =>
    cases i with
    | zero =>
      by_cases hk1 : k ≤ 1
      · rw [if_pos hk1, show k = 1 by omega, rangeUnion_single]
        rfl
      · rw [if_neg hk1]
        rfl
    | succ i2 =>
      show tciTableAt j ((mergePassGo (mergeStep ci (i2 + 2)) (i2 + 1)).getD k emptyTCI) = _
      rw [ih (mergeStep ci (i2 + 2)) (by rw [mergeStep_length2]; omega)]
      by_cases hcase : k ≤ i2 + 1
      · rw [if_pos hcase, if_pos (by omega)]
        rw [rangeUnion_split_last (mergeStep ci (i2 + 2)) j k (i2 + 1) hcase (by omega)]
        have hcong : rangeUnion (mergeStep ci (i2 + 2)) j k (i2 + 1 - 1) =
            rangeUnion ci j k (i2 + 1 - 1) := by
          refine rangeUnion_congr _ _ _ _ _ ?_
          intro idx h1 h2
          exact mergeStep_getD ci (i2 + 2) idx (by omega)
        have hms := mergeStep_getD_self ci (i2 + 2) (by omega) j
        rw [show i2 + 2 - 1 = i2 + 1 by omega] at hms
        rw [hcong, hms]
        rw [rangeUnion_split_last ci j k (i2 + 2) (by omega) (by omega),
          show i2 + 2 - 1 = i2 + 1 by omega,
          rangeUnion_split_last ci j k (i2 + 1) hcase (by omega)]
        rw [Finset.union_assoc]
      · rw [if_neg hcase]
        by_cases hcase2 : k ≤ i2 + 2
        · rw [if_pos hcase2, show k = i2 + 2 by omega]
          rw [mergeStep_getD ci (i2 + 2) (i2 + 2) (by omega), rangeUnion_single]
        · rw [if_neg hcase2]
          rw [mergeStep_getD ci (i2 + 2) k (by omega)]

theorem mergePass_getD_zero (ci : List TCI) :
    (mergePass ci).getD 0 emptyTCI = ci.getD 0 emptyTCI :=
  mergePassGo_getD_of_gt ci (ci.length - 1) 0 (Or.inr rfl)

theorem mergePass_getD (ci : List TCI) (k j : Nat) (hk : 1 ≤ k) (hk2 : k < ci.length) :
    tciTableAt j ((mergePass ci).getD k emptyTCI) =
      rangeUnion ci j k (ci.length - 1) := by
  unfold mergePass
  rw [mergePassGo_getD ci (ci.length - 1) (by omega) k j hk, if_pos (by omega)]

theorem dedupPass_getD_tables (ci : List TCI) (k : Nat) :
    ((dedupPass ci).getD k emptyTCI).tables = (ci.getD k emptyTCI).tables := by
  unfold dedupPass
  by_cases h : k < ci.length
  · rw [List.getD_eq_getElem _ _ (by simpa using h), List.getD_eq_getElem _ _ h]
    simp
  · rw [List.getD_eq_default _ _ (by simpa using le_of_not_lt h),
      List.getD_eq_default _ _ (le_of_not_lt h)]

theorem tciTableAt_dedupPass (ci : List TCI) (k j : Nat) :
    tciTableAt j ((dedupPass ci).getD k emptyTCI) =
      tciTableAt j (ci.getD k emptyTCI) := by
  show tablesAt _ j = tablesAt _ j
  rw [dedupPass_getD_tables]

theorem tciTableAt_of_tables_nil (t : TCI) (h : t.tables = []) (j : Nat) :
    tciTableAt j t = ∅ := by
  unfold tciTableAt tablesAt
  rw [h]
  rfl

theorem tciTableAt_clearLists (t : TCI) (j : Nat) :
    tciTableAt j (clearLists t) = tciTableAt j t := rfl

theorem pushSlot_getD_lt (E : Engine) (cur nv : VersionID) (ci : List TCI) (m : Nat)
    (hm : m + 1 < ci.length) :
    (pushSlot E cur nv ci).getD m emptyTCI = ci.getD m emptyTCI := by
  unfold pushSlot
  rw [List.getD_append _ _ _ _ (by
    rw [updateLast_length, updateLast_length]; omega)]
  rw [updateLast_getD_lt _ _ _ _ (by rw [updateLast_length]; omega),
    updateLast_getD_lt _ _ _ _ hm]

theorem pushSlot_getD_prev (E : Engine) (cur nv : VersionID) (ci : List TCI)
    (hne : ci ≠ []) :
    (pushSlot E cur nv ci).getD (ci.length - 1) emptyTCI =
      clearLists (recordTables E cur nv (ci.getD (ci.length - 1) emptyTCI)) := by
  have hpos : 0 < ci.length := List.length_pos.mpr hne
  unfold pushSlot
  rw [List.getD_append _ _ _ _ (by
    rw [updateLast_length, updateLast_length]; omega)]
  have h1 := updateLast_getD_last clearLists
    (updateLast (recordTables E cur nv) ci) emptyTCI
    (by rw [← List.length_pos, updateLast_length]; omega)
  rw [updateLast_length] at h1
  rw [h1, updateLast_getD_last _ _ _ hne]

theorem pushSlot_getD_new (E : Engine) (cur nv : VersionID) (ci : List TCI) :
    (pushSlot E cur nv ci).getD ci.length emptyTCI =
      ⟨[], (lastTCI (updateLast (recordTables E cur nv) ci)).lists⟩ := by
  unfold pushSlot
  rw [List.getD_append_right _ _ _ _ (by rw [updateLast_length, updateLast_length])]
  rw [updateLast_length, updateLast_length]
  simp

theorem vchain_of_sorted (E : Engine) (l : List NotifierObj) (cur : VersionID)
    (hs : List.Sorted (fun a b : NotifierObj => a.version ≤ b.version) l)
    (hlb : ∀ n ∈ l, cur ≤ n.version) (hub : ∀ n ∈ l, n.version ≤ E.latest) :
    VChain E cur l := by
  induction l generalizing cur with
  | nil => trivial
  | cons n rest ih =>
    show cur ≤ n.version ∧ n.version ≤ E.latest ∧ VChain E n.version rest
    exact ⟨hlb n (List.mem_cons_self _ _), hub n (List.mem_cons_self _ _),
      ih n.version hs.of_cons (fun m hm => List.rel_of_sorted_cons hs m hm)
        (fun m hm => hub m (List.mem_cons_of_mem _ hm))⟩

/-- The heart of C5: after the fan-in over a version-sorted staged list,
(1) slots strictly before the initial last slot are untouched, (2) the
slots from the initial last slot onwards jointly cover exactly the
changes from the advancer's pinned version to the latest version, and
(3) each staged notifier's assigned slot, together with all later slots,
covers exactly the changes from that notifier's own origin version to
the latest version. -/
theorem fanInGo_spec (E : Engine) (l : List NotifierObj) :
    ∀ (cur : VersionID) (ci : List TCI) (asg : List (NotifierObj × Nat)),
    ci ≠ [] →
    (lastTCI ci).tables = [] →
    VChain E cur l →
    cur ≤ E.latest →
    ((∀ m, m + 1 < ci.length →
      (fanInGo E l cur ci asg).1.getD m emptyTCI = ci.getD m emptyTCI) ∧
    (∀ j, rangeUnion (fanInGo E l cur ci asg).1 j (ci.length - 1)
        ((fanInGo E l cur ci asg).1.length - 1) = E.seg cur E.latest j) ∧
    (∀ p ∈ (fanInGo E l cur ci asg).2, p ∈ asg ∨
      (ci.length - 1 ≤ p.2 ∧ p.2 ≤ (fanInGo E l cur ci asg).1.length - 1 ∧
        ∀ j, rangeUnion (fanInGo E l cur ci asg).1 j p.2
          ((fanInGo E l cur ci asg).1.length - 1) = E.seg p.1.version E.latest j))) := by
  induction l with
  | nil =>
    intro cur ci asg hne hlast hchain hcur
    have hpos : 0 < ci.length := List.length_pos.mpr hne
    refine ⟨?_, ?_, fun p hp => Or.inl hp⟩
    · intro m hm
      exact updateLast_getD_lt _ _ _ _ hm
    · intro j
      show rangeUnion (updateLast (recordTables E cur E.latest) ci) j
        (ci.length - 1) ((updateLast (recordTables E cur E.latest) ci).length - 1) = _
      rw [updateLast_length, rangeUnion_single, updateLast_getD_last _ _ _ hne,
        tciTableAt_recordTables]
      have hl : (ci.getD (ci.length - 1) emptyTCI).tables = [] := by
        rw [← lastTCI_eq_getD]
        exact hlast
      rw [tciTableAt_of_tables_nil _ hl]
      simp
  | cons n rest ih =>
    intro cur ci asg hne hlast hchain hcur
    have hpos : 0 < ci.length := List.length_pos.mpr hne
    obtain ⟨hc1, hc2, hc3⟩ :
        cur ≤ n.version ∧ n.version ≤ E.latest ∧ VChain E n.version rest := hchain
    unfold fanInGo
    by_cases h : n.version = cur
    · rw [if_pos h]
      have hlast1 : (lastTCI (updateLast (addLists n) ci)).tables = [] := by
        rw [lastTCI_eq_getD, updateLast_length]
        have := updateLast_getD_last (addLists n) ci emptyTCI hne
        rw [this, addLists_tables, ← lastTCI_eq_getD]
        exact hlast
      have hchain1 : VChain E cur rest := by rw [← h]; exact hc3
      obtain ⟨ih1, ih2, ih3⟩ := ih cur (updateLast (addLists n) ci)
        (asg ++ [(n, ci.length - 1)])
        (by rw [← List.length_pos, updateLast_length]; omega) hlast1 hchain1 hcur
      rw [updateLast_length] at ih1 ih2 ih3
      have hreslen := fanInGo_length E rest cur (updateLast (addLists n) ci)
        (asg ++ [(n, ci.length - 1)])
      rw [updateLast_length] at hreslen
      refine ⟨?_, ih2, ?_⟩
      · intro m hm
        rw [ih1 m hm]
        exact updateLast_getD_lt _ _ _ _ hm
      · intro p hp
        rcases ih3 p hp with hin | hprop
        · rcases List.mem_append.mp hin with hin2 | hin2
          · exact Or.inl hin2
          · simp only [List.mem_singleton] at hin2
            subst hin2
            refine Or.inr ⟨le_refl _, by omega, ?_⟩
            intro j
            rw [ih2 j, h]
        · exact Or.inr hprop
    · rw [if_neg h, pushSlot_length, show ci.length + 1 - 1 = ci.length by omega]
      have hlast2 : (lastTCI (updateLast (addLists n)
          (pushSlot E cur n.version ci))).tables = [] := by
        rw [lastTCI_eq_getD, updateLast_length, pushSlot_length,
          show ci.length + 1 - 1 = ci.length by omega]
        have hlast' := updateLast_getD_last (addLists n)
          (pushSlot E cur n.version ci) emptyTCI
          (by rw [← List.length_pos, pushSlot_length]; omega)
        rw [pushSlot_length, show ci.length + 1 - 1 = ci.length by omega] at hlast'
        rw [hlast', addLists_tables, pushSlot_getD_new]
      obtain ⟨ih1, ih2, ih3⟩ := ih n.version
        (updateLast (addLists n) (pushSlot E cur n.version ci))
        (asg ++ [(n, ci.length)])
        (by rw [← List.length_pos, updateLast_length, pushSlot_length]; omega)
        hlast2 hc3 hc2
      rw [updateLast_length, pushSlot_length] at ih1 ih2 ih3
      rw [show ci.length + 1 - 1 = ci.length by omega] at ih2 ih3
      have hreslen := fanInGo_length E rest n.version
        (updateLast (addLists n) (pushSlot E cur n.version ci))
        (asg ++ [(n, ci.length)])
      rw [updateLast_length, pushSlot_length] at hreslen
      have hprev : (fanInGo E rest n.version
            (updateLast (addLists n) (pushSlot E cur n.version ci))
            (asg ++ [(n, ci.length)])).1.getD
          (ci.length - 1) emptyTCI =
          clearLists (recordTables E cur n.version (ci.getD (ci.length - 1) emptyTCI)) := by
        rw [ih1 (ci.length - 1) (by omega),
          updateLast_getD_lt _ _ _ _ (by rw [pushSlot_length]; omega),
          pushSlot_getD_prev E cur n.version ci hne]
      have hprevT : ∀ j, tciTableAt j ((fanInGo E rest n.version
            (updateLast (addLists n) (pushSlot E cur n.version ci))
            (asg ++ [(n, ci.length)])).1.getD
          (ci.length - 1) emptyTCI) = E.seg cur n.version j := by
        intro j
        rw [hprev, tciTableAt_clearLists, tciTableAt_recordTables,
          tciTableAt_of_tables_nil _ (by rw [← lastTCI_eq_getD]; exact hlast)]
        simp
      refine ⟨?_, ?_, ?_⟩
      · intro m hm
        rw [ih1 m (by omega),
          updateLast_getD_lt _ _ _ _ (by rw [pushSlot_length]; omega),
          pushSlot_getD_lt E cur n.version ci m hm]
      · intro j
        rw [rangeUnion_split_first _ _ _ _ (by omega)]
        rw [show ci.length - 1 + 1 = ci.length by omega]
        rw [hprevT j, ih2 j, E.seg_comp cur n.version E.latest j hc1 hc2]
      · intro p hp
        rcases ih3 p hp with hin | hprop
        · rcases List.mem_append.mp hin with hin2 | hin2
          · exact Or.inl hin2
          · simp only [List.mem_singleton] at hin2
            subst hin2
            exact Or.inr ⟨by omega, by omega, fun j => ih2 j⟩
        · exact Or.inr ⟨by omega, hprop.2.1, hprop.2.2⟩

theorem cons_tail_getD {α : Type} (x : α) (l : List α) (k : Nat) (d : α) (hk : 1 ≤ k)
    (hne : l ≠ []) : (x :: l.tail).getD k d = l.getD k d := by
  cases l with
  | nil => exact absurd rfl hne
  | cons a t =>
    cases k with
    | zero => omega
    | succ k => simp [List.getD_cons_succ]

/-- C5: the backwards merge pass runs `i` from `change_info.size() - 1`
down to 2, merging `change_info[i]` into `change_info[i - 1]` at the
table level (this is `mergePassGo`); after the pass, `change_info[0]`
holds the aggregate table diff for the previously-active notifiers
(the changes from the notifier transaction's version `w` to the latest
version), and each staged notifier's slot covers exactly the changes
from that notifier's own origin version to the cycle's final version —
in particular two notifiers staged at different origins in one cycle
each receive diffs relative to their own origin. -/
theorem c5_backwards_merge (E : Engine) (s : CoordState) (w v : VersionID)
    (herr : s.asyncError = false)
    (h1 : ∀ n ∈ s.notifiers, n.alive = true)
    (h2 : ∀ n ∈ s.newNotifiers, n.alive = true)
    (hne : s.newNotifiers ≠ [])
    (hna : s.notifiers ≠ [])
    (hsg : s.notifierSg = some (some w))
    (hadv : s.advancerSg = some (some v))
    (hlb : ∀ n ∈ s.newNotifiers, v ≤ n.version)
    (hvin : ∃ n ∈ s.newNotifiers, n.version = v)
    (hub : ∀ n ∈ s.newNotifiers, n.version ≤ E.latest) :
    ∃ r, run_async_notifiers E s = some r ∧
      (∀ j, tciTableAt j (r.changeInfo.headD emptyTCI) = E.seg w E.latest j) ∧
      (∀ p ∈ r.assign, 1 ≤ p.2 ∧ p.2 < r.changeInfo.length ∧
        (∀ j, tciTableAt j (r.changeInfo.getD p.2 emptyTCI) =
          E.seg p.1.version E.latest j)) ∧
      List.Perm (r.assign.map Prod.fst) s.newNotifiers := by
  have hopen : open_helper_shared_group E s = { s with notifierSg := some (some w) } :=
    open_helper_live hsg hna
  have hv : v = ((sortByVersion s.newNotifiers).headD dfltNotifier).version :=
    (sortByVersion_head_version s.newNotifiers v hne hlb hvin).symm
  have hvlat : v ≤ E.latest := by
    obtain ⟨n, hn, hnv⟩ := hvin
    exact hnv ▸ hub n hn
  have hrun := run_success_eq E s w v herr h1 h2 hne hopen hadv hv
  have hchain : VChain E v (sortByVersion s.newNotifiers) :=
    vchain_of_sorted E _ v (sortByVersion_sorted _)
      (fun n hn => hlb n ((sortByVersion_perm s.newNotifiers).subset hn))
      (fun n hn => hub n ((sortByVersion_perm s.newNotifiers).subset hn))
  obtain ⟨f1, f2, f3⟩ := fanInGo_spec E (sortByVersion s.newNotifiers) v
    [emptyTCI, emptyTCI] [] (by simp) rfl hchain hvlat
  simp only [List.length_cons, List.length_nil, Nat.zero_add] at f1 f2 f3
  have hfl := fanInGo_length E (sortByVersion s.newNotifiers) v [emptyTCI, emptyTCI] []
  simp only [List.length_cons, List.length_nil, Nat.zero_add] at hfl
  have hfne : (fanInGo E (sortByVersion s.newNotifiers) v
      [emptyTCI, emptyTCI] []).1 ≠ [] := by
    rw [← List.length_pos, hfl]
    omega
  have hcilen :
      (recordTables E w E.latest (addListsAll s.notifiers
          ((fanInGo E (sortByVersion s.newNotifiers) v
            [emptyTCI, emptyTCI] []).1.headD emptyTCI))
        :: (fanInGo E (sortByVersion s.newNotifiers) v
            [emptyTCI, emptyTCI] []).1.tail).length =
      (fanInGo E (sortByVersion s.newNotifiers) v [emptyTCI, emptyTCI] []).1.length := by
    simp only [List.length_cons, List.length_tail]
    rw [hfl]
    omega
  have hci1getD : ∀ k, 1 ≤ k →
      (recordTables E w E.latest (addListsAll s.notifiers
          ((fanInGo E (sortByVersion s.newNotifiers) v
            [emptyTCI, emptyTCI] []).1.headD emptyTCI))
        :: (fanInGo E (sortByVersion s.newNotifiers) v
            [emptyTCI, emptyTCI] []).1.tail).getD k emptyTCI =
      (fanInGo E (sortByVersion s.newNotifiers) v
        [emptyTCI, emptyTCI] []).1.getD k emptyTCI :=
    fun k hk => cons_tail_getD _ _ k emptyTCI hk hfne
  refine ⟨_, hrun, ?_, ?_, ?_⟩
  · intro j
    show tciTableAt j ((dedupPass (mergePass _)).headD emptyTCI) = _
    rw [headD_eq_getD, tciTableAt_dedupPass, mergePass_getD_zero]
    show tciTableAt j (recordTables E w E.latest (addListsAll s.notifiers
      ((fanInGo E (sortByVersion s.newNotifiers) v
        [emptyTCI, emptyTCI] []).1.headD emptyTCI))) = _
    rw [tciTableAt_recordTables, tciTableAt_addListsAll, headD_eq_getD,
      f1 0 (by omega)]
    show tciTableAt j emptyTCI ∪ _ = _
    rw [tciTableAt_of_tables_nil emptyTCI rfl]
    simp
  · intro p hp
    dsimp only at hp ⊢
    rcases f3 p hp with hfalse | ⟨hb1, hb2, hcontent⟩
    · exact absurd hfalse (List.not_mem_nil p)
    · have hb1' : 1 ≤ p.2 := by omega
      refine ⟨hb1', ?_, ?_⟩
      · show p.2 < (dedupPass (mergePass _)).length
        rw [dedupPass_length, mergePass_length, hcilen]
        omega
      · intro j
        show tciTableAt j ((dedupPass (mergePass _)).getD p.2 emptyTCI) = _
        rw [tciTableAt_dedupPass,
          mergePass_getD _ p.2 j hb1' (by rw [hcilen]; omega),
          hcilen,
          rangeUnion_congr _ _ j p.2
            ((fanInGo E (sortByVersion s.newNotifiers) v
              [emptyTCI, emptyTCI] []).1.length - 1)
            (fun idx h1x h2x => hci1getD idx (by omega))]
        exact hcontent j
  · show List.Perm (((fanInGo E (sortByVersion s.newNotifiers) v
      [emptyTCI, emptyTCI] []).2.map Prod.fst)) s.newNotifiers
    rw [fanInGo_assign_fst]
    simpa using sortByVersion_perm s.newNotifiers

theorem VersionID.version_le_of_le {a b : VersionID} (h : a ≤ b) :
    a.version ≤ b.version := by
  rcases h with h | rfl
  · rcases h with h | ⟨h, -⟩
    · exact le_of_lt h
    · exact le_of_eq h
  · exact le_refl _

/-- Witness for C5 at the spec's B2/S4 scenario: each staged notifier's
slot carries exactly the changes from its own origin to the latest
version, and slot 0 the active notifiers' aggregate. -/
theorem c5_backwards_merge_witness :
    ∃ r, run_async_notifiers engNat c5WitState = some r ∧
      (∀ j, tciTableAt j (r.changeInfo.headD emptyTCI) =
        engNat.seg ⟨5, 0⟩ engNat.latest j) ∧
      (∀ p ∈ r.assign, 1 ≤ p.2 ∧ p.2 < r.changeInfo.length ∧
        (∀ j, tciTableAt j (r.changeInfo.getD p.2 emptyTCI) =
          engNat.seg p.1.version engNat.latest j)) ∧
      List.Perm (r.assign.map Prod.fst) c5WitState.newNotifiers :=
  c5_backwards_merge engNat c5WitState ⟨5, 0⟩ ⟨3, 0⟩ rfl (by decide) (by decide)
    (by decide) (by decide) rfl rfl (by decide) (by decide) (by decide)

/-!
## Claim C9: deduplication of list-change descriptors
-/

theorem listId_augmentChanges (d : ListDesc) (cs : Finset Nat) :
    listId (augmentChanges d cs) = listId d := rfl

theorem changes_augmentChanges (d : ListDesc) (cs : Finset Nat) :
    (augmentChanges d cs).changes = d.changes ∪ cs := rfl

theorem dedupInnerGo_getD (src : ListDesc) (ls : List ListDesc) (i : Nat)
    (hlen : i ≤ ls.length) (p : Nat) :
    (dedupInnerGo src ls i).getD p dfltDesc =
      if p < i ∧ listId (ls.getD p dfltDesc) = listId src
      then augmentChanges (ls.getD p dfltDesc) src.changes
      else ls.getD p dfltDesc := by
  induction i generalizing ls with
  | zero => rw [if_neg (by omega)]; rfl
  | succ j ih =>
    unfold dedupInnerGo
    by_cases hcond : listId (ls.getD j dfltDesc) = listId src
    · rw [if_pos hcond]
      rw [ih (ls.set j (augmentChanges (ls.getD j dfltDesc) src.changes))
        (by rw [List.length_set]; omega) ]
      by_cases hpj : p = j
      · subst hpj
        rw [if_neg (by omega), if_pos ⟨by omega, hcond⟩,
          getD_set_self _ _ _ _ (by omega)]
      · rw [getD_set_ne _ _ _ _ _ (fun hh => hpj hh.symm)]
        by_cases hplt : p < j
        · by_cases hid : listId (ls.getD p dfltDesc) = listId src
          · rw [if_pos ⟨hplt, hid⟩, if_pos ⟨by omega, hid⟩]
          · rw [if_neg (by tauto), if_neg (by tauto)]
        · rw [if_neg (by tauto), if_neg (by omega)]
    · rw [if_neg hcond, ih ls (by omega)]
      by_cases hpj : p = j
      · subst hpj
        rw [if_neg (by omega), if_neg (by tauto)]
      · by_cases hplt : p < j
        · by_cases hid : listId (ls.getD p dfltDesc) = listId src
          · rw [if_pos ⟨hplt, hid⟩, if_pos ⟨by omega, hid⟩]
          · rw [if_neg (by tauto), if_neg (by tauto)]
        · rw [if_neg (by tauto), if_neg (by omega)]

theorem mem_unionOver {x : Nat} {l : List (Finset Nat)} :
    x ∈ unionOver l ↔ ∃ s ∈ l, x ∈ s := by
  induction l with
  | nil => simp [unionOver]
  | cons a t ih =>
    show x ∈ a ∪ unionOver t ↔ _
    rw [Finset.mem_union, ih]
    simp

theorem mem_laterMatchUnion {x : Nat} {ls : List ListDesc} {i p : Nat} :
    x ∈ laterMatchUnion ls i p ↔
      ∃ q, i ≤ q ∧ q < ls.length ∧ p < q ∧
        listId (ls.getD q dfltDesc) = listId (ls.getD p dfltDesc) ∧
        x ∈ (ls.getD q dfltDesc).changes := by
  unfold laterMatchUnion
  rw [mem_unionOver]
  constructor
  · rintro ⟨s, hs, hx⟩
    rw [List.mem_map] at hs
    obtain ⟨q, hq, rfl⟩ := hs
    rw [List.mem_filter] at hq
    obtain ⟨hqr, hqp⟩ := hq
    rw [List.mem_range'_1] at hqr
    rw [decide_eq_true_eq] at hqp
    exact ⟨q, hqr.1, by omega, hqp.1, hqp.2, hx⟩
  · rintro ⟨q, hq1, hq2, hq3, hq4, hx⟩
    refine ⟨(ls.getD q dfltDesc).changes, ?_, hx⟩
    rw [List.mem_map]
    refine ⟨q, ?_, rfl⟩
    rw [List.mem_filter, List.mem_range'_1]
    exact ⟨⟨hq1, by omega⟩, by rw [decide_eq_true_eq]; exact ⟨hq3, hq4⟩⟩

theorem dedupOuterGo_getD (fuel : Nat) (ls : List ListDesc) (i p : Nat)
    (hfuel : ls.length ≤ i + fuel) :
    ((dedupOuterGo fuel ls i).getD p dfltDesc).changes =
      (ls.getD p dfltDesc).changes ∪ laterMatchUnion ls i p ∧
    listId ((dedupOuterGo fuel ls i).getD p dfltDesc) =
      listId (ls.getD p dfltDesc) := by
  induction fuel generalizing ls i with
  | zero =>
    have hempty : laterMatchUnion ls i p = ∅ := by
      unfold laterMatchUnion
      rw [show ls.length - i = 0 by omega]
      rfl
    rw [hempty]
    exact ⟨by show (ls.getD p dfltDesc).changes = (ls.getD p dfltDesc).changes ∪ ∅; simp,
      rfl⟩
  | succ fuel ihf =>
    unfold dedupOuterGo
    by_cases hi : i < ls.length
    · rw [if_pos hi]
      have hinner := dedupInnerGo_getD (ls.getD i dfltDesc) ls i (by omega)
      have hlen' : (dedupInnerGo (ls.getD i dfltDesc) ls i).length = ls.length :=
        dedupInnerGo_length _ _ _
      obtain ⟨ihc, ihid⟩ := ihf (dedupInnerGo (ls.getD i dfltDesc) ls i) (i + 1)
        (by rw [hlen']; omega)
      -- translate entries of the inner-updated array back to `ls`
      have hq' : ∀ q, i ≤ q →
          (dedupInnerGo (ls.getD i dfltDesc) ls i).getD q dfltDesc =
            ls.getD q dfltDesc := by
        intro q hq
        rw [hinner q, if_neg (by omega)]
      have hidp : listId ((dedupInnerGo (ls.getD i dfltDesc) ls i).getD p dfltDesc) =
          listId (ls.getD p dfltDesc) := by
        rw [hinner p]
        by_cases hc : p < i ∧ listId (ls.getD p dfltDesc) = listId (ls.getD i dfltDesc)
        · rw [if_pos hc, listId_augmentChanges]
        · rw [if_neg hc]
      have hlater : laterMatchUnion (dedupInnerGo (ls.getD i dfltDesc) ls i) (i + 1) p =
          laterMatchUnion ls (i + 1) p := by
        ext x
        rw [mem_laterMatchUnion, mem_laterMatchUnion]
        constructor
        · rintro ⟨q, h1, h2, h3, h4, hx⟩
          rw [hlen'] at h2
          rw [hq' q (by omega), hidp] at h4
          rw [hq' q (by omega)] at hx
          exact ⟨q, h1, h2, h3, h4, hx⟩
        · rintro ⟨q, h1, h2, h3, h4, hx⟩
          refine ⟨q, h1, by rw [hlen']; omega, h3, ?_, ?_⟩
          · rw [hq' q (by omega), hidp]
            exact h4
          · rw [hq' q (by omega)]
            exact hx
      refine ⟨?_, ?_⟩
      · rw [ihc, hlater, hinner p]
        by_cases hc : p < i ∧ listId (ls.getD p dfltDesc) = listId (ls.getD i dfltDesc)
        · rw [if_pos hc, changes_augmentChanges]
          ext x
          rw [Finset.mem_union, Finset.mem_union, Finset.mem_union,
            mem_laterMatchUnion, mem_laterMatchUnion]
          constructor
          · rintro (⟨hx | hx⟩ | ⟨q, h1, h2, h3, h4, hx⟩)
            · exact Or.inl hx
            · exact Or.inr ⟨i, le_refl i, hi, hc.1, hc.2.symm, hx⟩
            · exact Or.inr ⟨q, by omega, h2, h3, h4, hx⟩
          · rintro (hx | ⟨q, h1, h2, h3, h4, hx⟩)
            · exact Or.inl (Or.inl hx)
            · by_cases hqi : q = i
              · subst hqi
                exact Or.inl (Or.inr hx)
              · exact Or.inr ⟨q, by omega, h2, h3, h4, hx⟩
        · rw [if_neg hc]
          congr 1
          ext x
          rw [mem_laterMatchUnion, mem_laterMatchUnion]
          constructor
          · rintro ⟨q, h1, h2, h3, h4, hx⟩
            exact ⟨q, by omega, h2, h3, h4, hx⟩
          · rintro ⟨q, h1, h2, h3, h4, hx⟩
            refine ⟨q, ?_, h2, h3, h4, hx⟩
            rcases Nat.eq_or_lt_of_le h1 with hqi | hqi
            · exfalso
              subst hqi
              exact hc ⟨h3, h4.symm⟩
            · omega
      · rw [ihid, hidp]
    · rw [if_neg hi]
      have hempty : laterMatchUnion ls i p = ∅ := by
        unfold laterMatchUnion
        rw [show ls.length - i = 0 by omega]
        rfl
      rw [hempty]
      exact ⟨by show (ls.getD p dfltDesc).changes = (ls.getD p dfltDesc).changes ∪ ∅; simp,
        rfl⟩

theorem mem_matchUnion {x : Nat} {ls : List ListDesc} {e : Nat} :
    x ∈ matchUnion ls e ↔
      ∃ q, q < ls.length ∧
        listId (ls.getD q dfltDesc) = listId (ls.getD e dfltDesc) ∧
        x ∈ (ls.getD q dfltDesc).changes := by
  unfold matchUnion
  rw [mem_unionOver]
  constructor
  · rintro ⟨s, hs, hx⟩
    rw [List.mem_map] at hs
    obtain ⟨q, hq, rfl⟩ := hs
    rw [List.mem_filter] at hq
    obtain ⟨hqr, hqp⟩ := hq
    rw [List.mem_range] at hqr
    rw [decide_eq_true_eq] at hqp
    exact ⟨q, hqr, hqp, hx⟩
  · rintro ⟨q, hq1, hq2, hx⟩
    refine ⟨(ls.getD q dfltDesc).changes, ?_, hx⟩
    rw [List.mem_map]
    refine ⟨q, ?_, rfl⟩
    rw [List.mem_filter, List.mem_range]
    exact ⟨hq1, by rw [decide_eq_true_eq]; exact hq2⟩

/-- C9: within each `change_info` entry, the deduplication pass merges
the changes of every later duplicate `(table, column, row)` identity
into each earlier occurrence; in particular, after the pass, the
earliest descriptor of each identity carries the union of the changes
of all its duplicates (and the pass leaves the per-table change sets
untouched). -/
theorem c9_dedup_lists :
    (∀ (ci : List TCI) (k : Nat),
      ((dedupPass ci).getD k emptyTCI).lists =
        dedupLists (ci.getD k emptyTCI).lists ∧
      ((dedupPass ci).getD k emptyTCI).tables = (ci.getD k emptyTCI).tables) ∧
    (∀ (ls : List ListDesc) (e : Nat), e < ls.length →
      (∀ q, q < e → listId (ls.getD q dfltDesc) ≠ listId (ls.getD e dfltDesc)) →
      ((dedupLists ls).getD e dfltDesc).changes = matchUnion ls e ∧
      listId ((dedupLists ls).getD e dfltDesc) = listId (ls.getD e dfltDesc)) := by
  constructor
  · intro ci k
    refine ⟨?_, dedupPass_getD_tables ci k⟩
    by_cases h : k < ci.length
    · unfold dedupPass
      rw [List.getD_eq_getElem _ _ (by simpa using h), List.getD_eq_getElem _ _ h]
      simp
    · unfold dedupPass
      rw [List.getD_eq_default _ _ (by simpa using le_of_not_lt h),
        List.getD_eq_default _ _ (le_of_not_lt h)]
      rfl
  · intro ls e he hearliest
    obtain ⟨hc, hid⟩ := dedupOuterGo_getD ls.length ls 1 e (by omega)
    refine ⟨?_, hid⟩
    show ((dedupOuterGo ls.length ls 1).getD e dfltDesc).changes = _
    rw [hc]
    ext x
    rw [Finset.mem_union, mem_laterMatchUnion, mem_matchUnion]
    constructor
    · rintro (hx | ⟨q, h1, h2, h3, h4, hx⟩)
      · exact ⟨e, he, rfl, hx⟩
      · exact ⟨q, h2, h4, hx⟩
    · rintro ⟨q, h1, h2, hx⟩
      rcases lt_trichotomy q e with hqe | hqe | hqe
      · exact absurd h2 (hearliest q hqe)
      · subst hqe
        exact Or.inl hx
      · exact Or.inr ⟨q, by omega, h1, hqe, h2, hx⟩

/-- Witness for C9: the earliest `(1, 2, 3)` descriptor ends up with the
union of its own changes and those of its duplicate. -/
theorem c9_dedup_lists_witness :
    ((dedupLists c9WitLists).getD 0 dfltDesc).changes = matchUnion c9WitLists 0 ∧
    ((dedupLists c9WitLists).getD 0 dfltDesc).changes = ({1, 3} : Finset Nat) :=
  ⟨(c9_dedup_lists.2 c9WitLists 0 (by decide) (by decide)).1, by decide⟩

/-- Counterexample to C8 as stated: `clear_cache` called through
coordinator 0 also erases coordinator 1's registry entry (it clears the
entire map) and closes coordinator 1's cached handle, so its effect is
not scoped to the receiving coordinator. -/
theorem c8_counterexample : ¬c8ClaimAt c8CexState 0 := by decide

theorem bumpClose_rid (rid : Nat) (x : RealmObj) : (bumpClose rid x).rid = x.rid := by
  unfold bumpClose; split <;> rfl

theorem bumpClose_alive (rid : Nat) (x : RealmObj) :
    (bumpClose rid x).alive = x.alive := by
  unfold bumpClose; split <;> rfl

theorem bumpClose_owner (rid : Nat) (x : RealmObj) :
    (bumpClose rid x).owner = x.owner := by
  unfold bumpClose; split <;> rfl

theorem find?_map_bump (l : List RealmObj) (rid q : Nat) :
    (l.map (bumpClose rid)).find? (fun x => decide (x.rid = q)) =
      (l.find? (fun x => decide (x.rid = q))).map (bumpClose rid) := by
  induction l with
  | nil => rfl
  | cons a t ih =>
    rw [List.map_cons]
    by_cases h : a.rid = q
    · rw [List.find?_cons_of_pos _ (by simp [bumpClose_rid, h]),
        List.find?_cons_of_pos _ (by simp [h])]
      rfl
    · rw [List.find?_cons_of_neg _ (by simp [bumpClose_rid, h]),
        List.find?_cons_of_neg _ (by simp [h]), ih]

theorem closeRealm_realms (st : CacheState) (rid : Nat) :
    (closeRealm st rid).realms =
      if realmAlive st rid then st.realms.map (bumpClose rid) else st.realms := by
  unfold closeRealm unregisterRealm
  split <;> rfl

theorem findRealm_closeRealm (st : CacheState) (rid q : Nat) :
    findRealm (closeRealm st rid) q =
      if realmAlive st rid then (findRealm st q).map (bumpClose rid)
      else findRealm st q := by
  unfold findRealm
  rw [closeRealm_realms]
  by_cases h : realmAlive st rid
  · rw [if_pos h, if_pos h]
    exact find?_map_bump st.realms rid q
  · rw [if_neg h, if_neg h]

theorem realmAlive_closeRealm (st : CacheState) (rid q : Nat) :
    realmAlive (closeRealm st rid) q = realmAlive st q := by
  unfold realmAlive
  rw [findRealm_closeRealm]
  by_cases h : realmAlive st rid
  · rw [if_pos h]
    cases findRealm st q with
    | none => rfl
    | some x => exact bumpClose_alive rid x
  · rw [if_neg h]

theorem realmOwner_closeRealm (st : CacheState) (rid q : Nat) :
    realmOwner (closeRealm st rid) q = realmOwner st q := by
  unfold realmOwner
  rw [findRealm_closeRealm]
  by_cases h : realmAlive st rid
  · rw [if_pos h]
    cases findRealm st q with
    | none => rfl
    | some x => exact bumpClose_owner rid x
  · rw [if_neg h]

theorem realmCloseCount_closeRealm (st : CacheState) (rid q : Nat) :
    realmCloseCount (closeRealm st rid) q =
      realmCloseCount st q + (if q = rid ∧ realmAlive st rid then 1 else 0) := by
  unfold realmCloseCount
  rw [findRealm_closeRealm]
  by_cases h : realmAlive st rid
  · rw [if_pos h]
    cases hf : findRealm st q with
    | none =>
      by_cases hq : q = rid
      · exfalso
        subst hq
        unfold realmAlive at h
        rw [hf] at h
        exact absurd h (by simp)
      · rw [if_neg (fun hc => hq hc.1)]
        rfl
    | some x =>
      have hx : x.rid = q := by
        unfold findRealm at hf
        simpa using List.find?_some hf
      show (bumpClose rid x).closeCount = x.closeCount + _
      unfold bumpClose
      rw [hx]
      by_cases hq : q = rid
      · rw [if_pos hq, if_pos ⟨hq, h⟩]
      · rw [if_neg hq, if_neg (fun hc => hq hc.1)]
        rfl
  · rw [if_neg h, if_neg (fun hc => h hc.2)]
    cases findRealm st q <;> rfl

theorem closeRealm_registry (st : CacheState) (rid : Nat) :
    (closeRealm st rid).registry = st.registry := by
  unfold closeRealm unregisterRealm
  split <;> rfl

theorem closeAll_registry (st : CacheState) (l : List Nat) :
    (closeAll st l).registry = st.registry := by
  induction l generalizing st with
  | nil => rfl
  | cons r t ih =>
    show (closeAll (closeRealm st r) t).registry = _
    rw [ih, closeRealm_registry]

theorem realmAlive_closeAll (st : CacheState) (l : List Nat) (q : Nat) :
    realmAlive (closeAll st l) q = realmAlive st q := by
  induction l generalizing st with
  | nil => rfl
  | cons r t ih =>
    show realmAlive (closeAll (closeRealm st r) t) q = _
    rw [ih, realmAlive_closeRealm]

theorem realmCloseCount_closeAll (st : CacheState) (l : List Nat) (q : Nat) :
    realmCloseCount (closeAll st l) q =
      realmCloseCount st q + (if realmAlive st q then l.count q else 0) := by
  induction l generalizing st with
  | nil =>
    show realmCloseCount st q = _
    rw [List.count_nil]
    split <;> rfl
  | cons r t ih =>
    show realmCloseCount (closeAll (closeRealm st r) t) q = _
    rw [ih, realmCloseCount_closeRealm, realmAlive_closeRealm, List.count_cons]
    by_cases ha : realmAlive st q
    · rw [if_pos ha, if_pos ha]
      by_cases hq : q = r
      · rw [if_pos ⟨hq, hq ▸ ha⟩, if_pos (by simp [hq])]
        omega
      · rw [if_neg (fun hc : q = r ∧ realmAlive st r = true => hq hc.1),
          if_neg (by simp only [beq_iff_eq]; exact fun h => hq h.symm)]
        omega
    · rw [if_neg ha, if_neg ha,
        if_neg (fun hc : q = r ∧ realmAlive st r = true =>
          ha (show realmAlive st q from hc.1.symm ▸ hc.2))]

theorem findCoord_cid (st : CacheState) (v : Nat) (c : CoordObj)
    (h : findCoord st v = some c) : c.cid = v := by
  unfold findCoord at h
  simpa using List.find?_some h

theorem findCoord_mem (st : CacheState) (v : Nat) (c : CoordObj)
    (h : findCoord st v = some c) : c ∈ st.coords :=
  List.mem_of_find?_eq_some h

theorem pairwise_filterMap_of_pairwise {α β : Type} (f : α → Option β)
    (R : α → α → Prop) (S : β → β → Prop) (l : List α)
    (h : l.Pairwise R)
    (hf : ∀ a b, R a b → ∀ x y, f a = some x → f b = some y → S x y) :
    (l.filterMap f).Pairwise S := by
  induction l with
  | nil => exact List.Pairwise.nil
  | cons a t ih =>
    rw [List.pairwise_cons] at h
    rw [List.filterMap_cons]
    cases hfa : f a with
    | none => exact ih h.2
    | some x =>
      refine List.Pairwise.cons ?_ (ih h.2)
      intro y hy
      rcases List.mem_filterMap.mp hy with ⟨b, hb, hfb⟩
      exact hf a b (h.1 b hb) x y hfa hfb

theorem registeredLiveCoords_pairwise (st : CacheState)
    (h : st.registry.Pairwise (fun a b => a.2 ≠ b.2)) :
    (registeredLiveCoords st).Pairwise (fun a b => a.cid ≠ b.cid) := by
  unfold registeredLiveCoords
  refine pairwise_filterMap_of_pairwise _ _ _ _ h ?_
  intro a b hR x y hx hy
  rw [findCoord_cid st a.2 x hx, findCoord_cid st b.2 y hy]
  exact hR

theorem registeredLiveCoords_subset (st : CacheState) :
    ∀ c ∈ registeredLiveCoords st, c ∈ st.coords := by
  intro c hc
  rcases List.mem_filterMap.mp hc with ⟨e, he, hfe⟩
  exact findCoord_mem st e.2 c hfe

theorem count_filter_weak (st : CacheState) (w : List Nat) (rid : Nat)
    (hnd : w.Nodup) :
    (w.filter (fun r => realmAlive st r)).count rid =
      if realmAlive st rid ∧ rid ∈ w then 1 else 0 := by
  by_cases hm : rid ∈ w
  · by_cases ha : realmAlive st rid
    · rw [if_pos ⟨ha, hm⟩]
      exact List.count_eq_one_of_mem (hnd.filter _) (List.mem_filter.mpr ⟨hm, ha⟩)
    · rw [if_neg (fun hc => ha hc.1), List.count_eq_zero]
      intro hmem
      exact ha (List.mem_filter.mp hmem).2
  · rw [if_neg (fun hc => hm hc.2), List.count_eq_zero]
    intro hmem
    exact hm (List.mem_filter.mp hmem).1

theorem count_collect_go (st : CacheState) (cs : List CoordObj) (rid : Nat)
    (hnd : ∀ c ∈ cs, c.weakRealms.Nodup)
    (hown : ∀ c ∈ cs, ∀ r ∈ c.weakRealms, realmOwner st r = c.cid)
    (hpw : cs.Pairwise (fun a b => a.cid ≠ b.cid)) :
    (cs.flatMap (fun c => c.weakRealms.filter (fun r => realmAlive st r))).count rid =
      if realmAlive st rid ∧ ∃ c ∈ cs, rid ∈ c.weakRealms then 1 else 0 := by
  induction cs with
  | nil => simp
  | cons a t ih =>
    rw [List.pairwise_cons] at hpw
    rw [List.flatMap_cons, List.count_append,
      count_filter_weak st _ _ (hnd a (by simp)),
      ih (fun c hc => hnd c (by simp [hc])) (fun c hc => hown c (by simp [hc])) hpw.2]
    by_cases ha : realmAlive st rid
    · by_cases hm : rid ∈ a.weakRealms
      · have hmt : ¬∃ c ∈ t, rid ∈ c.weakRealms := by
          rintro ⟨c', hc', hm'⟩
          have h1 := hown a (by simp) rid hm
          have h2 := hown c' (by simp [hc']) rid hm'
          exact hpw.1 c' hc' (h1 ▸ h2 ▸ rfl)
        rw [if_pos ⟨ha, hm⟩, if_neg (fun hc => hmt hc.2),
          if_pos ⟨ha, a, List.mem_cons_self a t, hm⟩]
      · by_cases hmt : ∃ c ∈ t, rid ∈ c.weakRealms
        · rcases hmt with ⟨c', hc', hm'⟩
          rw [if_neg (fun hc => hm hc.2), if_pos ⟨ha, c', hc', hm'⟩,
            if_pos ⟨ha, c', List.mem_cons_of_mem a hc', hm'⟩]
        · rw [if_neg (fun hc => hm hc.2), if_neg (fun hc => hmt hc.2)]
          rw [if_neg ?hcons]
          case hcons =>
            rintro ⟨-, c', hc', hm'⟩
            rcases List.mem_cons.mp hc' with hce | hct
            · exact hm (hce ▸ hm')
            · exact hmt ⟨c', hct, hm'⟩
    · rw [if_neg (fun hc => ha hc.1), if_neg (fun hc => ha hc.1),
        if_neg (fun hc => ha hc.1)]

theorem findRealm_bump (st : CacheState) (rid q : Nat) :
    findRealm { st with realms := st.realms.map (bumpClose rid) } q =
      (findRealm st q).map (bumpClose rid) :=
  find?_map_bump st.realms rid q

theorem realmOwner_bump (st : CacheState) (rid q : Nat) :
    realmOwner { st with realms := st.realms.map (bumpClose rid) } q =
      realmOwner st q := by
  unfold realmOwner
  rw [findRealm_bump]
  cases findRealm st q with
  | none => rfl
  | some x => exact bumpClose_owner rid x

theorem closeRealm_not_mem (st : CacheState) (rid : Nat)
    (hown : ∀ c ∈ st.coords, ∀ r ∈ c.weakRealms, realmOwner st r = c.cid)
    (ha : realmAlive st rid = true) :
    ∀ c ∈ (closeRealm st rid).coords, rid ∉ c.weakRealms := by
  intro c hc hm
  unfold closeRealm at hc
  rw [if_pos ha] at hc
  unfold unregisterRealm at hc
  rcases List.mem_map.mp hc with ⟨c₀, hc₀, heq⟩
  subst heq
  by_cases hcid :
      c₀.cid = realmOwner { st with realms := st.realms.map (bumpClose rid) } rid
  · rw [if_pos hcid] at hm
    have := (List.mem_filter.mp hm).2
    simp at this
  · rw [if_neg hcid] at hm
    exact hcid ((realmOwner_bump st rid rid).trans (hown c₀ hc₀ rid hm)).symm

theorem closeRealm_weak_subset (st : CacheState) (rid : Nat) :
    ∀ c ∈ (closeRealm st rid).coords, ∃ c₀ ∈ st.coords,
      c.cid = c₀.cid ∧ c.hasNotifier = c₀.hasNotifier ∧
        ∀ r ∈ c.weakRealms, r ∈ c₀.weakRealms := by
  intro c hc
  unfold closeRealm at hc
  by_cases ha : realmAlive st rid
  · rw [if_pos ha] at hc
    unfold unregisterRealm at hc
    rcases List.mem_map.mp hc with ⟨c₀, hc₀, heq⟩
    subst heq
    refine ⟨c₀, hc₀, ?_⟩
    by_cases hcid :
        c₀.cid = realmOwner { st with realms := st.realms.map (bumpClose rid) } rid
    · rw [if_pos hcid]
      exact ⟨rfl, rfl, fun r hr => (List.mem_filter.mp hr).1⟩
    · rw [if_neg hcid]
      exact ⟨rfl, rfl, fun r hr => hr⟩
  · rw [if_neg ha] at hc
    exact ⟨c, hc, rfl, rfl, fun r hr => hr⟩

theorem closeAll_weak_subset (st : CacheState) (l : List Nat) :
    ∀ c ∈ (closeAll st l).coords, ∃ c₀ ∈ st.coords,
      c.cid = c₀.cid ∧ c.hasNotifier = c₀.hasNotifier ∧
        ∀ r ∈ c.weakRealms, r ∈ c₀.weakRealms := by
  induction l generalizing st with
  | nil => exact fun c hc => ⟨c, hc, rfl, rfl, fun r hr => hr⟩
  | cons x t ih =>
    intro c hc
    rcases ih (closeRealm st x) c hc with ⟨c₁, hc₁, h1, h2, h3⟩
    rcases closeRealm_weak_subset st x c₁ hc₁ with ⟨c₀, hc₀, g1, g2, g3⟩
    exact ⟨c₀, hc₀, h1.trans g1, h2.trans g2, fun r hr => g3 r (h3 r hr)⟩

theorem hown_closeRealm (st : CacheState) (x : Nat)
    (hown : ∀ c ∈ st.coords, ∀ r ∈ c.weakRealms, realmOwner st r = c.cid) :
    ∀ c ∈ (closeRealm st x).coords, ∀ r ∈ c.weakRealms,
      realmOwner (closeRealm st x) r = c.cid := by
  intro c hc r hr
  rw [realmOwner_closeRealm]
  rcases closeRealm_weak_subset st x c hc with ⟨c₀, hc₀, hcid, -, hsub⟩
  rw [hcid]
  exact hown c₀ hc₀ r (hsub r hr)

theorem closeAll_not_mem (st : CacheState) (l : List Nat)
    (hown : ∀ c ∈ st.coords, ∀ r ∈ c.weakRealms, realmOwner st r = c.cid)
    (hal : ∀ r ∈ l, realmAlive st r = true) :
    ∀ r ∈ l, ∀ c ∈ (closeAll st l).coords, r ∉ c.weakRealms := by
  induction l generalizing st with
  | nil => intro r hr; cases hr
  | cons x t ih =>
    intro r hr c hc
    have hc' : c ∈ (closeAll (closeRealm st x) t).coords := hc
    rcases List.mem_cons.mp hr with hrx | hrt
    · subst hrx
      rcases closeAll_weak_subset (closeRealm st r) t c hc' with ⟨c₀, hc₀, -, -, hsub⟩
      intro hm
      exact closeRealm_not_mem st r hown (hal r (by simp)) c₀ hc₀ (hsub _ hm)
    · exact ih (closeRealm st x) (hown_closeRealm st x hown)
        (fun r' hr' => by
          rw [realmAlive_closeRealm]
          exact hal r' (by simp [hr'])) r hrt c hc'

theorem dropNotifiers_spec (st : CacheState) :
    ∀ c ∈ (dropNotifiers st).coords, ∃ c₀ ∈ st.coords,
      c.cid = c₀.cid ∧ c.weakRealms = c₀.weakRealms ∧
        c.hasNotifier = (if st.registry.any (fun e => decide (e.2 = c₀.cid))
          then false else c₀.hasNotifier) := by
  intro c hc
  rcases List.mem_map.mp hc with ⟨c₀, hc₀, heq⟩
  refine ⟨c₀, hc₀, ?_⟩
  subst heq
  refine ⟨?_, ?_, ?_⟩ <;> split <;> rfl

theorem collect_alive (st : CacheState) :
    ∀ r ∈ collectRealmsToClose st, realmAlive st r = true := by
  intro r hr
  unfold collectRealmsToClose at hr
  rcases List.mem_flatMap.mp hr with ⟨c, -, hrc⟩
  exact (List.mem_filter.mp hrc).2

theorem hown_phase1 (st : CacheState)
    (hown : ∀ c ∈ st.coords, ∀ r ∈ c.weakRealms, realmOwner st r = c.cid) :
    ∀ c ∈ ({ dropNotifiers st with registry := [] } : CacheState).coords,
      ∀ r ∈ c.weakRealms,
        realmOwner ({ dropNotifiers st with registry := [] } : CacheState) r = c.cid := by
  intro c hc r hr
  rcases dropNotifiers_spec st c hc with ⟨c₀, hc₀, hcid, hweak, -⟩
  rw [hcid]
  have hro : realmOwner ({ dropNotifiers st with registry := [] } : CacheState) r =
      realmOwner st r := rfl
  rw [hro]
  exact hown c₀ hc₀ r (hweak ▸ hr)

theorem cache_clear_registry (st : CacheState) :
    (cache_clear_cache st).registry = [] := by
  unfold cache_clear_cache
  rw [closeAll_registry]

theorem clear_cache_of_empty (st : CacheState) (h : st.registry = []) :
    cache_clear_cache st = st := by
  obtain ⟨cs, rs, reg⟩ := st
  have h' : reg = [] := h
  subst h'
  simp [cache_clear_cache, collectRealmsToClose, registeredLiveCoords,
    dropNotifiers, closeAll, List.map_id']

theorem count_collect (st : CacheState) (rid : Nat) (hWF : WFCache st) :
    (collectRealmsToClose st).count rid =
      if realmAlive st rid ∧ cachedByRegistered st rid then 1 else 0 := by
  unfold collectRealmsToClose cachedByRegistered
  exact count_collect_go st _ rid
    (fun c hc => hWF.2.2.1 c (registeredLiveCoords_subset st c hc))
    (fun c hc => hWF.2.2.2.1 c (registeredLiveCoords_subset st c hc))
    (registeredLiveCoords_pairwise st hWF.2.2.2.2)

/-- Claim C8 (corrected): `clear_cache` is not scoped to the receiving
coordinator (see the counterexample): it clears the ENTIRE process
registry, drops the commit notifier of EVERY registered live
coordinator, and calls `close()` exactly once on each live handle
cached by ANY registered coordinator — and on no other handle; no
collected handle remains in any coordinator's weak list afterwards,
and repeated calls are idempotent. -/
theorem c8_clear_cache (st : CacheState) (hWF : WFCache st) :
    (cache_clear_cache st).registry = [] ∧
    (∀ c ∈ (cache_clear_cache st).coords,
      (∃ e ∈ st.registry, e.2 = c.cid) → c.hasNotifier = false) ∧
    (∀ q, realmCloseCount (cache_clear_cache st) q =
      realmCloseCount st q +
        (if realmAlive st q ∧ cachedByRegistered st q then 1 else 0)) ∧
    (∀ r ∈ collectRealmsToClose st, ∀ c ∈ (cache_clear_cache st).coords,
      r ∉ c.weakRealms) ∧
    cache_clear_cache (cache_clear_cache st) = cache_clear_cache st := by
  refine ⟨cache_clear_registry st, ?_, ?_, ?_, ?_⟩
  · intro c hc hreg
    have hc' : c ∈ (closeAll ({ dropNotifiers st with registry := [] } : CacheState)
        (collectRealmsToClose st)).coords := hc
    rcases closeAll_weak_subset _ _ c hc' with ⟨c₁, hc₁, hcid1, hnot1, -⟩
    rcases dropNotifiers_spec st c₁ hc₁ with ⟨c₀, hc₀, hcid0, -, hnot0⟩
    have hany : st.registry.any (fun e => decide (e.2 = c₀.cid)) = true := by
      rcases hreg with ⟨e, he, hev⟩
      refine List.any_eq_true.mpr ⟨e, he, ?_⟩
      rw [decide_eq_true_eq]
      exact hev.trans (hcid1.trans hcid0)
    rw [hnot1, hnot0, if_pos hany]
  · intro q
    have h1 : realmCloseCount (cache_clear_cache st) q =
        realmCloseCount ({ dropNotifiers st with registry := [] } : CacheState) q +
          (if realmAlive ({ dropNotifiers st with registry := [] } : CacheState) q
           then (collectRealmsToClose st).count q else 0) :=
      realmCloseCount_closeAll _ _ q
    have h2 : realmCloseCount ({ dropNotifiers st with registry := [] } : CacheState) q =
        realmCloseCount st q := rfl
    have h3 : realmAlive ({ dropNotifiers st with registry := [] } : CacheState) q =
        realmAlive st q := rfl
    rw [h1, h2, h3, count_collect st q hWF]
    by_cases ha : realmAlive st q
    · rw [if_pos ha]
    · rw [if_neg ha, if_neg (fun hc : realmAlive st q = true ∧ _ => ha hc.1)]
  · intro r hr c hc
    have hc' : c ∈ (closeAll ({ dropNotifiers st with registry := [] } : CacheState)
        (collectRealmsToClose st)).coords := hc
    exact closeAll_not_mem _ (collectRealmsToClose st)
      (hown_phase1 st hWF.2.2.2.1)
      (fun r' hr' => collect_alive st r' hr') r hr c hc'
  · exact clear_cache_of_empty _ (cache_clear_registry st)

/-- Witness for the corrected C8 theorem at the concrete two-coordinator
state: the hypothesis holds and, e.g., the second coordinator's handle
is closed exactly once. -/
theorem c8_clear_cache_witness :
    WFCache c8CexState ∧
      realmCloseCount (cache_clear_cache c8CexState) 11 =
        realmCloseCount c8CexState 11 +
          (if realmAlive c8CexState 11 ∧ cachedByRegistered c8CexState 11
           then 1 else 0) :=
  ⟨by decide, (c8_clear_cache c8CexState (by decide)).2.2.1 11⟩

end RealmCoord
